import Mathlib

/-!
# MySTL: `Array<T, N>` and `UniquePtr<T, Deleter>`

A shallow embedding of `src/Array.hpp` and `src/UniquePtr.hpp`, followed by the
theorems that settle the claims of the specification against it.

Conventions of the embedding

* `size_t` values are natural numbers; no operation of the two headers does
  arithmetic that could wrap, except `elements_[N - 1]` in `back`, which is only
  reached with `N > 0`.
* A C++ exception is the error side of `Except`.
* A pointer into an array is `nullptr` or a position `elements_ + k` of the storage
  of the array it came from.
* An owned pointer value is a natural number, `0` being `nullptr`.  A pointer stands for
  the resource it designates: the implicit conversion `U* → T*` of the converting
  constructor designates the same resource, so it is not a separate operation
  (the source has no cast there either: `p_ = exchange(that.p_, nullptr)`).
* Objects with identity (the handles) live in a store keyed by their address, so
  that `this != &that` is a comparison of addresses.
* The effect of `Deleter{}(p)` is recorded in a log of calls.
-/

namespace MySTL

/-! ## `src/Array.hpp` -/

/-- The exception `std::runtime_error`, with the message returned by `what()`. -/
structure RuntimeError where
  what : String
deriving DecidableEq, Repr

/-- The decimal rendering `std::to_string(i)` of a `size_t`. -/
def to_string (i : Nat) : String := Nat.repr i

/-- The message built in both `at` bodies: `"out of range! + i = " + std::to_string(i)`. -/
def outOfRange (i : Nat) : RuntimeError :=
  ⟨"out of range! + i = " ++ to_string i⟩

/-- The value of a decimal digit character. -/
def digitVal (c : Char) : Nat := c.toNat - 48

/-- The number that a sequence of decimal digits denotes. -/
def decimalVal (cs : List Char) : Nat :=
  cs.foldl (fun acc c => 10 * acc + digitVal c) 0

/-- The primary template `Array<T, N>`: the one data member `T elements_[N]`. -/
structure Array (T : Type) (N : Nat) where
  elements_ : List T
  length_eq : elements_.length = N

/-- The specialization `Array<T, 0>`: it has no data member. -/
structure Array0 (T : Type) where
deriving DecidableEq, Repr

namespace Array

variable {T : Type} {N : Nat}

/-- Body of `Array::at` (lines 29-43, both overloads have the same body):
`if (i >= N) throw std::runtime_error(...); return elements_[i];`.
(`at` is a keyword of Lean, hence the underscore.) -/
def at_ (a : Array T N) (i : Nat) : Except RuntimeError T :=
  if h : i ≥ N then
    Except.error (outOfRange i)
  else
    Except.ok (a.elements_.get ⟨i, by have := a.length_eq; omega⟩)

end Array

namespace Array0

variable {T : Type}

/-- Body of `Array<T, 0>::at` (lines 141-149): an unconditional `throw`. -/
def at_ (_a : Array0 T) (i : Nat) : Except RuntimeError T :=
  Except.error (outOfRange i)

end Array0

/-- The class that the name `Array<T, N>` denotes: the specialization for `N = 0`,
the primary template otherwise. -/
def ArrayOf (T : Type) : Nat → Type
  | 0 => Array0 T
  | n + 1 => Array T (n + 1)

namespace ArrayOf

variable {T : Type}

/-- The stored elements of an instantiation, in storage order (none for `N = 0`). -/
def elements : {N : Nat} → ArrayOf T N → List T
  | 0, _ => []
  | _ + 1, a => Array.elements_ a

/-- Call of `a.at(i)` on the instantiation for `N`. -/
def at_ : {N : Nat} → ArrayOf T N → Nat → Except RuntimeError T
  | 0, a, i => Array0.at_ a i
  | _ + 1, a, i => Array.at_ a i

end ArrayOf

/-- The counted loop `for (size_t i = 0; i != N; ++i) body(i);` of `fill` and `swap`: the
body runs for `i = 0, 1, ..., N - 1` in this order (the body does not write `i`). -/
def forLoop {S : Type} (N : Nat) (body : Nat → S → S) (s : S) : S :=
  (List.range N).foldl (fun s i => body i s) s

/-- A pointer `T*` or `T const*` as the array functions return it: `nullptr`, or
`elements_ + k`, a position in the storage of the array it was obtained from. -/
inductive ElemPtr where
  | null
  | elem (k : Nat)
deriving DecidableEq, Repr

/-- Pointer arithmetic `p + n` (for `nullptr` only `nullptr + 0` is defined in C++, and it
is `nullptr`). -/
def ElemPtr.add : ElemPtr → Nat → ElemPtr
  | .null, _ => .null
  | .elem k, n => .elem (k + n)

namespace Array

variable {T : Type} {N : Nat}

/-- Body of `Array::operator[]` (lines 17-26, both overloads have the same body):
`return elements_[i];`, with no bounds check.  `none` is the undefined behaviour of an access
outside the storage. -/
def index (a : Array T N) (i : Nat) : Option T :=
  a.elements_[i]?

/-- The assignment `elements_[i] = val;` through the reference that the mutable
`operator[]` returns. -/
def store (a : Array T N) (i : Nat) (val : T) : Array T N :=
  ⟨a.elements_.set i val, by rw [List.length_set]; exact a.length_eq⟩

/-- Body of `Array::fill` (lines 46-50):
`for (size_t i = 0; i != N; ++i) elements_[i] = val;`. -/
def fill (a : Array T N) (val : T) : Array T N :=
  forLoop N (fun i s => s.store i val) a

/-- The call `std::swap(elements_[i], that[i]);` on the pair `(*this, that)`: the two
elements are read and each is stored in the other array. -/
def swapSlot (i : Nat) (s : Array T N × Array T N) : Array T N × Array T N :=
  match s.1.elements_[i]?, s.2.index i with
  | some x, some y => (s.1.store i y, s.2.store i x)
  | _, _ => s

/-- Body of `Array::swap` (lines 52-56):
`for (size_t i = 0; i != N; ++i) std::swap(elements_[i], that[i]);`.  The result is the
pair of `*this` and `that` after the call. -/
def swap (a that : Array T N) : Array T N × Array T N :=
  forLoop N swapSlot (a, that)

/-- Body of `Array::front` (lines 59-62): `return elements_[0];`. -/
def front (a : Array T N) : Option T :=
  a.elements_[0]?

/-- Body of `Array::back` (lines 65-68): `return elements_[N - 1];`. -/
def back (a : Array T N) : Option T :=
  a.elements_[N - 1]?

/-- Body of `Array::empty` (lines 70-73): `return false;`. -/
def empty (_a : Array T N) : Bool := false

/-- Body of `Array::size` (lines 76-79): `return N;`. -/
def size (_a : Array T N) : Nat := N

/-- Body of `Array::max_size` (lines 81-84): `return N;`. -/
def max_size (_a : Array T N) : Nat := N

/-- Body of `Array::data` (lines 86-89): `return elements_;`. -/
def data (_a : Array T N) : ElemPtr := .elem 0

/-- Body of `Array::begin` (lines 92-95 and 100-103, both overloads): `return elements_;`. -/
def begin_ (_a : Array T N) : ElemPtr := .elem 0

/-- Body of `Array::end` (lines 96-99 and 104-107, both overloads):
`return elements_ + N;`.  (`end` is a keyword of Lean, hence the underscore.) -/
def end_ (_a : Array T N) : ElemPtr := ElemPtr.add (.elem 0) N

end Array

namespace Array0

variable {T : Type}

/-- Body of `Array<T, 0>::operator[]` (lines 129-138): `_LIBPENGCXX_UNREACHABLE();`, which
is undefined behaviour whenever it is reached. -/
def index (_a : Array0 T) (_i : Nat) : Option T := none

/-- Body of `Array<T, 0>::fill` (lines 152-154): empty. -/
def fill (a : Array0 T) (_val : T) : Array0 T := a

/-- Body of `Array<T, 0>::swap` (lines 156-158): empty. -/
def swap (a that : Array0 T) : Array0 T × Array0 T := (a, that)

/-- Body of `Array<T, 0>::front` (lines 161-164): `_LIBPENGCXX_UNREACHABLE();`. -/
def front (_a : Array0 T) : Option T := none

/-- Body of `Array<T, 0>::back` (lines 167-170): `_LIBPENGCXX_UNREACHABLE();`. -/
def back (_a : Array0 T) : Option T := none

/-- Body of `Array<T, 0>::empty` (lines 172-175): `return true;`. -/
def empty (_a : Array0 T) : Bool := true

/-- Body of `Array<T, 0>::size` (lines 178-181): `return 0;`. -/
def size (_a : Array0 T) : Nat := 0

/-- Body of `Array<T, 0>::max_size` (lines 183-186): `return 0;`. -/
def max_size (_a : Array0 T) : Nat := 0

/-- Body of `Array<T, 0>::data` (lines 188-191): `return nullptr;`. -/
def data (_a : Array0 T) : ElemPtr := .null

/-- Body of `Array<T, 0>::begin` (lines 194-197 and 202-205): `return nullptr;`. -/
def begin_ (_a : Array0 T) : ElemPtr := .null

/-- Body of `Array<T, 0>::end` (lines 198-201 and 206-209): `return nullptr;`. -/
def end_ (_a : Array0 T) : ElemPtr := .null

end Array0

namespace ArrayOf

variable {T : Type}

/-- Call of `a[i]` on the instantiation for `N`. -/
def index : {N : Nat} → ArrayOf T N → Nat → Option T
  | 0, a, i => Array0.index a i
  | _ + 1, a, i => Array.index a i

/-- Call of `a.fill(val)` on the instantiation for `N`. -/
def fill : {N : Nat} → ArrayOf T N → T → ArrayOf T N
  | 0, a, val => Array0.fill a val
  | _ + 1, a, val => Array.fill a val

/-- Call of `a.swap(that)` on the instantiation for `N`: `a` and `that` after the call. -/
def swap : {N : Nat} → ArrayOf T N → ArrayOf T N → ArrayOf T N × ArrayOf T N
  | 0, a, that => Array0.swap a that
  | _ + 1, a, that => Array.swap a that

/-- Call of `a.front()` on the instantiation for `N`. -/
def front : {N : Nat} → ArrayOf T N → Option T
  | 0, a => Array0.front a
  | _ + 1, a => Array.front a

/-- Call of `a.back()` on the instantiation for `N`. -/
def back : {N : Nat} → ArrayOf T N → Option T
  | 0, a => Array0.back a
  | _ + 1, a => Array.back a

/-- Call of `a.empty()` on the instantiation for `N`. -/
def empty : {N : Nat} → ArrayOf T N → Bool
  | 0, a => Array0.empty a
  | _ + 1, a => Array.empty a

/-- Call of `a.size()` on the instantiation for `N`. -/
def size : {N : Nat} → ArrayOf T N → Nat
  | 0, a => Array0.size a
  | _ + 1, a => Array.size a

/-- Call of `a.max_size()` on the instantiation for `N`. -/
def max_size : {N : Nat} → ArrayOf T N → Nat
  | 0, a => Array0.max_size a
  | _ + 1, a => Array.max_size a

/-- Call of `a.data()` on the instantiation for `N`. -/
def data : {N : Nat} → ArrayOf T N → ElemPtr
  | 0, a => Array0.data a
  | _ + 1, a => Array.data a

/-- Call of `a.begin()` on the instantiation for `N`. -/
def begin_ : {N : Nat} → ArrayOf T N → ElemPtr
  | 0, a => Array0.begin_ a
  | _ + 1, a => Array.begin_ a

/-- Call of `a.end()` on the instantiation for `N`. -/
def end_ : {N : Nat} → ArrayOf T N → ElemPtr
  | 0, a => Array0.end_ a
  | _ + 1, a => Array.end_ a

/-- The read `*p` of a pointer obtained from `a`; `none` is the undefined behaviour of
reading through `nullptr` or outside the storage. -/
def deref {N : Nat} (a : ArrayOf T N) : ElemPtr → Option T
  | .null => none
  | .elem k => a.elements[k]?

/-- The traversal `for (p = first; p != last; ++p) visit(*p);` over pointers obtained from
`a`: the elements visited, in order.  At most `fuel` elements are visited; `none` when
the fuel runs out before `last` is met, or when an element is read outside the storage. -/
def traverseFrom {N : Nat} (a : ArrayOf T N) (last : ElemPtr) : Nat → ElemPtr → Option (List T)
  | 0, p => if p = last then some [] else none
  | fuel + 1, p =>
    if p = last then some []
    else
      match a.deref p with
      | none => none
      | some x => (traverseFrom a last fuel (p.add 1)).map (fun xs => x :: xs)

/-- The traversal from `a.begin()` to `a.end()`. -/
def traverse {N : Nat} (a : ArrayOf T N) (fuel : Nat) : Option (List T) :=
  traverseFrom a a.end_ fuel a.begin_

/-- An array object with the given contents: `Array<T, N> a = {x0, ..., x(N-1)};`. -/
def ofList (xs : List T) : ArrayOf T xs.length :=
  match xs with
  | [] => (⟨⟩ : Array0 T)
  | x :: xs => (⟨x :: xs, rfl⟩ : Array T (xs.length + 1))

end ArrayOf

/-! ## `src/UniquePtr.hpp` -/

/-- A raw pointer value `T*`. -/
abbrev Ptr := Nat

/-- The null pointer. -/
def nullptr : Ptr := 0

/-- The address of a handle object (what `this` and `&that` compare). -/
abbrev Addr := Nat

/-- A release strategy: the type given as the `Deleter` template argument. -/
abbrev DeleterId := Nat

/-- One evaluation of `Deleter{}(p)`: which strategy ran, and on which pointer. -/
structure Call where
  deleter : DeleterId
  arg : Ptr
deriving DecidableEq, Repr

/-- Function `exchange(dst, val)` (lines 26-32): `tmp = move(dst); dst = val; return tmp;`.
The result is the returned value paired with the new content of `dst`. -/
def exchange (dst val : Ptr) : Ptr × Ptr :=
  let tmp := dst
  let dst := val
  (tmp, dst)

/-- An object of class `UniquePtr<T, Deleter>`: its `Deleter` template argument, fixed by
its type, and its one data member `p_`. -/
structure UniquePtr where
  Deleter : DeleterId
  p_ : Ptr
deriving DecidableEq, Repr

/-- The program state: the live handle objects by address, and the `Deleter` calls made so
far, oldest first. -/
structure World where
  objs : List (Addr × UniquePtr)
  calls : List Call
deriving DecidableEq, Repr

namespace World

/-- The state before any handle exists. -/
def init : World := ⟨[], []⟩

/-- The live handle at address `h`, if there is one. -/
def find (σ : World) (h : Addr) : Option UniquePtr := σ.objs.lookup h

/-- Write the object at address `h`. -/
def put (σ : World) (h : Addr) (u : UniquePtr) : World :=
  { σ with objs := (h, u) :: σ.objs.filter (fun e => e.1 != h) }

/-- End the lifetime of the object at address `h`. -/
def del (σ : World) (h : Addr) : World :=
  { σ with objs := σ.objs.filter (fun e => e.1 != h) }

/-- The call `D{}(p)`. -/
def invoke (σ : World) (D : DeleterId) (p : Ptr) : World :=
  { σ with calls := σ.calls ++ [⟨D, p⟩] }

/-- The statement `if (p_) Deleter{}(p_);` of the destructor, of move assignment and of
`reset`, run on the object `u`. -/
def releaseHeld (σ : World) (u : UniquePtr) : World :=
  if u.p_ ≠ nullptr then σ.invoke u.Deleter u.p_ else σ

/-- Whether some live handle holds the pointer `p`. -/
def holds (σ : World) (p : Ptr) : Bool := σ.objs.any (fun e => e.2.p_ == p)

/-- Constructor `UniquePtr(std::nullptr_t = nullptr)` (lines 47-50) of a new object of class
`UniquePtr<T, D>` at address `h`: `p_ = nullptr;`. -/
def ctorNull (σ : World) (h : Addr) (D : DeleterId) : Option World :=
  match σ.find h with
  | some _ => none
  | none => some (σ.put h ⟨D, nullptr⟩)

/-- Constructor `explicit UniquePtr(T *p)` (lines 53-56): `p_ = p;`. -/
def ctorRaw (σ : World) (h : Addr) (D : DeleterId) (p : Ptr) : Option World :=
  match σ.find h with
  | some _ => none
  | none => some (σ.put h ⟨D, p⟩)

/-- Converting constructor `UniquePtr(UniquePtr<U, UDeleter> &&that)` (lines 59-64) of a new
object of class `UniquePtr<T, D>` at address `h`: `p_ = exchange(that.p_, nullptr);`.
The class of `that` is unconstrained apart from `U*` converting to `T*`. -/
def ctorConv (σ : World) (h : Addr) (D : DeleterId) (that : Addr) : Option World :=
  match σ.find h, σ.find that with
  | none, some u =>
    let r := exchange u.p_ nullptr
    some ((σ.put that { u with p_ := r.2 }).put h ⟨D, r.1⟩)
  | _, _ => none

/-- Move constructor `UniquePtr(UniquePtr &&that)` (lines 80-83), the new object has the
class of `that`: `p_ = exchange(that.p_, nullptr);`. -/
def ctorMove (σ : World) (h : Addr) (that : Addr) : Option World :=
  match σ.find h, σ.find that with
  | none, some u =>
    let r := exchange u.p_ nullptr
    some ((σ.put that { u with p_ := r.2 }).put h ⟨u.Deleter, r.1⟩)
  | _, _ => none

/-- Destructor `~UniquePtr()` (lines 67-71): `if (p_) Deleter{}(p_);`, after which the
object is gone. -/
def dtor (σ : World) (h : Addr) : Option World :=
  match σ.find h with
  | none => none
  | some u => some ((σ.releaseHeld u).del h)

/-- Move assignment `operator=(UniquePtr &&that)` (lines 86-96), called on the object at
`this_` with the object at `that`, both of the same class:
`if (this != &that) { if (p_) Deleter{}(p_); p_ = exchange(that.p_, nullptr); }`. -/
def moveAssign (σ : World) (this_ that : Addr) : Option World :=
  match σ.find this_, σ.find that with
  | some u, some v =>
    if u.Deleter ≠ v.Deleter then none
    else if this_ ≠ that then
      let σ1 := σ.releaseHeld u
      let r := exchange v.p_ nullptr
      some ((σ1.put that { v with p_ := r.2 }).put this_ { u with p_ := r.1 })
    else some σ
  | _, _ => none

/-- Method `get() const` (lines 99-102): `return p_;`. -/
def get (σ : World) (h : Addr) : Option Ptr :=
  match σ.find h with
  | none => none
  | some u => some u.p_

/-- Method `release()` (lines 105-108): `return exchange(p_, nullptr);`.  The result is the
returned pointer and the state after the call. -/
def release (σ : World) (h : Addr) : Option (Ptr × World) :=
  match σ.find h with
  | none => none
  | some u =>
    let r := exchange u.p_ nullptr
    some (r.1, σ.put h { u with p_ := r.2 })

/-- Method `reset(T *p = nullptr)` (lines 111-116): `if (p_) Deleter{}(p_); p_ = p;`. -/
def reset (σ : World) (h : Addr) (p : Ptr) : Option World :=
  match σ.find h with
  | none => none
  | some u => some ((σ.releaseHeld u).put h { u with p_ := p })

end World

/-- The public operations of the handle, as they occur in a program. -/
inductive Op where
  | ctorNull (h : Addr) (D : DeleterId)
  | ctorRaw (h : Addr) (D : DeleterId) (p : Ptr)
  | ctorConv (h : Addr) (D : DeleterId) (that : Addr)
  | ctorMove (h : Addr) (that : Addr)
  | dtor (h : Addr)
  | moveAssign (this_ that : Addr)
  | get (h : Addr)
  | release (h : Addr)
  | reset (h : Addr) (p : Ptr)
deriving DecidableEq, Repr

/-- One operation; `none` when it cannot be applied there: it names an object outside its
lifetime, constructs one where one lives, or move-assigns between objects of different
classes (`operator=` takes an object of its own class only; a program that writes such an
assignment runs the converting construction of a temporary, the assignment from it and its
destruction, which are three operations here). -/
def step (σ : World) : Op → Option World
  | .ctorNull h D => σ.ctorNull h D
  | .ctorRaw h D p => σ.ctorRaw h D p
  | .ctorConv h D that => σ.ctorConv h D that
  | .ctorMove h that => σ.ctorMove h that
  | .dtor h => σ.dtor h
  | .moveAssign t s => σ.moveAssign t s
  | .get h => (σ.get h).map (fun _ => σ)
  | .release h => (σ.release h).map (fun r => r.2)
  | .reset h p => σ.reset h p

/-- A sequence of operations, run in order. -/
def run : World → List Op → Option World
  | σ, [] => some σ
  | σ, op :: ops => (step σ op).bind (fun σ1 => run σ1 ops)

/-- The condition on the caller: a raw pointer handed to a constructor or to `reset` is
null or held by no live handle. -/
def Op.fresh (σ : World) : Op → Bool
  | .ctorRaw _ _ p => p == nullptr || !σ.holds p
  | .reset _ p => p == nullptr || !σ.holds p
  | _ => true

/-- Every operation of the sequence meets `Op.fresh` in the state it runs in. -/
def admissible : World → List Op → Bool
  | _, [] => true
  | σ, op :: ops =>
    op.fresh σ && (match step σ op with
      | some σ1 => admissible σ1 ops
      | none => true)

/-- How one operation changes which handles are moved-from: the source of a transfer
(wherever the code runs `exchange(that.p_, nullptr)` on another object) becomes moved-from;
an object stops being moved-from when it is constructed, destroyed, or given a pointer by
`reset` or as the target of a transfer. -/
def Op.mark (m : Addr → Bool) : Op → Addr → Bool
  | .ctorNull h _ => fun k => if k = h then false else m k
  | .ctorRaw h _ _ => fun k => if k = h then false else m k
  | .ctorConv h _ that => fun k => if k = h then false else if k = that then true else m k
  | .ctorMove h that => fun k => if k = h then false else if k = that then true else m k
  | .dtor h => fun k => if k = h then false else m k
  | .moveAssign t s => fun k =>
      if t = s then m k else if k = t then false else if k = s then true else m k
  | .get _ => m
  | .release _ => m
  | .reset h _ => fun k => if k = h then false else m k

/-- The moved-from handles after a sequence of operations. -/
def movedFrom (ops : List Op) : Addr → Bool :=
  ops.foldl Op.mark (fun _ => false)

/-- Exclusive ownership: no two live handles hold the same non-null pointer. -/
def Exclusive (σ : World) : Prop :=
  ∀ h k u v, σ.find h = some u → σ.find k = some v →
    u.p_ ≠ nullptr → u.p_ = v.p_ → h = k

/-- One link of a move chain: how ownership passes from the current owner to the next
handle `dst`. -/
inductive Link where
  /-- `UniquePtr dst(std::move(src));`: move construction of a new handle. -/
  | construct (dst : Addr)
  /-- `dst = std::move(src);`: move assignment into a live Empty handle. -/
  | assign (dst : Addr)
deriving DecidableEq, Repr

/-- The handle that receives ownership in a link. -/
def Link.dst : Link → Addr
  | .construct d => d
  | .assign d => d

/-- The operation that a link performs on the current owner `src`. -/
def Link.op (src : Addr) : Link → Op
  | .construct d => .ctorMove d src
  | .assign d => .moveAssign d src

/-- What a link needs of the state it runs in: the target of a construction is not a live
object, the target of an assignment is a live Empty handle of the class `D`. -/
def Link.ready (σ : World) (D : DeleterId) : Link → Prop
  | .construct d => σ.find d = none
  | .assign d => σ.find d = some ⟨D, nullptr⟩

/-- Whether the links `ls`, continuing a chain that is at the owner `src` and has gone
through the handles `seen` so far, form a chain as a program can write it from the state
`σ` in which the chain began: a construction makes a handle that is neither live in `σ` nor
already in the chain; an assignment goes into another handle, which is an earlier handle of
the chain (Empty since ownership left it) or a live Empty handle of `σ` of the class `D`. -/
def chainReady (σ : World) (D : DeleterId) : List Addr → Addr → List Link → Bool
  | _, _, [] => true
  | seen, _, .construct d :: ls =>
    decide (σ.find d = none) && decide (d ∉ seen) && chainReady σ D (d :: seen) d ls
  | seen, src, .assign d :: ls =>
    decide (d ≠ src) && decide (d ∈ seen ∨ σ.find d = some ⟨D, nullptr⟩) &&
      chainReady σ D (d :: seen) d ls

/-- The operations of a move chain that starts at the owner `src`. -/
def chainOps : Addr → List Link → List Op
  | _, [] => []
  | src, l :: ls => l.op src :: chainOps l.dst ls

/-- The handle at the end of a move chain. -/
def chainLast : Addr → List Link → Addr
  | src, [] => src
  | _, l :: ls => chainLast l.dst ls

/-- All handles of a move chain, the first owner included. -/
def chainHandles (src : Addr) (ls : List Link) : List Addr :=
  src :: ls.map Link.dst

/-- The release strategy `DefaultDeleter<T>` of the primary template (lines 7-14), whose
call operator runs `delete p;`: scalar release. -/
def scalarRelease : DeleterId := 0

/-- The release strategy `DefaultDeleter<T[]>` of the partial specialization (lines 16-23),
whose call operator runs `delete[] p;`: block release. -/
def blockRelease : DeleterId := 1

/-- The kind of resource type given as the template argument `T`: an object type, or an
array-of-element type `T[]`. -/
inductive Resource where
  | object
  | array
deriving DecidableEq, Repr

/-- The class that the name `DefaultDeleter<R>` denotes: the partial specialization for an
array type, the primary template otherwise.  It is the default `Deleter` argument of
`UniquePtr<R>` (line 35: `typename Deleter = DefaultDeleter<T>`). -/
def DefaultDeleter : Resource → DeleterId
  | .object => scalarRelease
  | .array => blockRelease

/-- The operations that a program can apply to a handle of the class
`UniquePtr<T[], Deleter>` (lines 130-133).  The specialization declares no member and
inherits `UniquePtr<T, Deleter>` privately, so these are its implicitly declared members
only; an object of the class is its base subobject, which is what the store holds. -/
inductive ArrOp where
  /-- `UniquePtr<T[], D> h;`: the implicit default constructor. -/
  | ctorDefault (h : Addr) (D : DeleterId)
  /-- `UniquePtr<T[], D> h(std::move(that));`: the implicit move constructor. -/
  | ctorMove (h that : Addr)
  /-- `this_ = std::move(that);`: the implicit move assignment. -/
  | moveAssign (this_ that : Addr)
  /-- The implicit destructor. -/
  | dtor (h : Addr)
deriving DecidableEq, Repr

/-- The member of the base class `UniquePtr<T, Deleter>` that an implicitly declared member
of the specialization runs on the base subobject. -/
def ArrOp.base : ArrOp → Op
  | .ctorDefault h D => .ctorNull h D
  | .ctorMove h that => .ctorMove h that
  | .moveAssign t s => .moveAssign t s
  | .dtor h => .dtor h

/-- A sample program on array handles of the default class: `a; b(move(a)); c; c = move(b);
a = move(a); ~b; ~c;` with `a`, `b`, `c` at addresses 1 to 3. -/
def arrayProgram : List ArrOp :=
  [.ctorDefault 1 (DefaultDeleter .array), .ctorMove 2 1,
   .ctorDefault 3 (DefaultDeleter .array), .moveAssign 3 2, .moveAssign 1 1, .dtor 2, .dtor 3]

/-- A sample state: handle 1 of class 0 owns pointer 5, handle 2 of class 0 is empty. -/
def sampleWorld : World := ⟨[(1, ⟨0, 5⟩), (2, ⟨0, nullptr⟩)], []⟩

/-- A sample program, all handles of class 0: `a(5); b(move(a)); c; c = move(b);
b.reset(7); q = c.release(); d(q); ~b;` with `a`, `b`, `c`, `d` at addresses 1 to 4. -/
def sampleProgram : List Op :=
  [.ctorRaw 1 0 5, .ctorMove 2 1, .ctorNull 3 0, .moveAssign 3 2, .reset 2 7, .release 3,
   .ctorRaw 4 0 5, .dtor 2]

/-- A state with one handle of a derived class: handle 1, of release strategy 1, owns
pointer 5. -/
def derivedWorld : World := ⟨[(1, ⟨1, 5⟩)], []⟩

/-! ## Theorems -/

theorem ArrayOf.length_elements {T : Type} : ∀ {N : Nat} (a : ArrayOf T N),
    a.elements.length = N
  | 0, _ => rfl
  | _ + 1, a => Array.length_eq a


/-! ### Reading the index back from the message -/

theorem digitVal_digitChar : ∀ d < 10, digitVal (Nat.digitChar d) = d := by
  decide

theorem decimalVal_digits (L : List Nat) (hL : ∀ d ∈ L, d < 10) :
    decimalVal (L.reverse.map Nat.digitChar) = Nat.ofDigits 10 L := by
  induction L with
  | nil => rfl
  | cons d L ih =>
    have h1 := ih (fun x hx => hL x (List.mem_cons_of_mem _ hx))
    have h2 := digitVal_digitChar d (hL d (List.mem_cons_self _ _))
    unfold decimalVal at h1 ⊢
    simp only [List.reverse_cons, List.map_append, List.foldl_append, List.map_cons,
      List.map_nil, List.foldl_cons, List.foldl_nil, h1, h2, Nat.ofDigits_cons]
    omega

theorem toDigitsCore_ten (fuel : Nat) : ∀ (n : Nat) (ds : List Char), n < fuel → 0 < n →
    Nat.toDigitsCore 10 fuel n ds = ((Nat.digits 10 n).reverse.map Nat.digitChar) ++ ds := by
  induction fuel with
  | zero => intro n ds h; omega
  | succ f ih =>
    intro n ds hlt hpos
    rw [Nat.toDigitsCore]
    have hd : Nat.digits 10 n = (n % 10) :: Nat.digits 10 (n / 10) :=
      Nat.digits_def' (by norm_num) hpos
    by_cases h0 : n / 10 = 0
    · simp [h0, hd]
    · have h1 : n / 10 < f := by omega
      have h2 : 0 < n / 10 := Nat.pos_of_ne_zero h0
      simp only [h0, if_false]
      rw [ih (n / 10) _ h1 h2, hd]
      simp

theorem decimalVal_toDigits (n : Nat) : decimalVal (Nat.toDigits 10 n) = n := by
  rcases Nat.eq_zero_or_pos n with h | h
  · subst h; decide
  · rw [Nat.toDigits, toDigitsCore_ten (n + 1) n [] (by omega) h, List.append_nil,
      decimalVal_digits _ (fun d hd => Nat.digits_lt_base (by norm_num) hd), Nat.ofDigits_digits]

theorem to_string_injective (a b : Nat) (h : to_string a = to_string b) : a = b := by
  have h1 : (Nat.repr a).data = (Nat.repr b).data := by
    unfold to_string at h
    rw [h]
  simp only [Nat.repr, List.asString] at h1
  rw [← decimalVal_toDigits a, ← decimalVal_toDigits b, h1]

theorem outOfRange_injective (a b : Nat) (h : outOfRange a = outOfRange b) : a = b := by
  have h1 := congrArg (fun e => e.what.data) h
  simp only [outOfRange, String.data_append] at h1
  exact to_string_injective a b (String.ext (List.append_cancel_left h1))

/-- C1: for every length `N` (also `N = 0`), every array `a` of that length and every index
`i`, `a.at(i)` throws exactly when `i >= N`, what it throws is the `runtime_error` whose
message is "out of range! + i = " followed by the decimal digits of `i`, and when `i < N`
it returns element `i` of the storage; for `N = 0` it throws for every `i`, `0` included. -/
theorem at_contract {T : Type} (N : Nat) (a : ArrayOf T N) (i : Nat) :
    ((∃ e, a.at_ i = Except.error e) ↔ i ≥ N) ∧
    (∀ e, a.at_ i = Except.error e →
      e = outOfRange i ∧ e.what = "out of range! + i = " ++ to_string i ∧
      ∀ j, e = outOfRange j → j = i) ∧
    (i ≥ N → a.at_ i = Except.error (outOfRange i)) ∧
    (∀ h : i < a.elements.length, a.at_ i = Except.ok (a.elements.get ⟨i, h⟩)) ∧
    (i < N → ∃ h : i < a.elements.length, a.at_ i = Except.ok (a.elements.get ⟨i, h⟩)) ∧
    (N = 0 → a.at_ 0 = Except.error (outOfRange 0)) := by
  cases N with
  | zero =>
    refine ⟨⟨fun _ => Nat.zero_le _, fun _ => ⟨_, rfl⟩⟩, ?_, fun _ => rfl, ?_, ?_, fun _ => rfl⟩
    · intro e he
      have : outOfRange i = e := by
        simpa [ArrayOf.at_, Array0.at_] using he
      subst this
      exact ⟨rfl, rfl, fun j hj => outOfRange_injective j i hj.symm⟩
    · intro h
      exact absurd h (by simp [ArrayOf.elements])
    · intro h
      exact absurd h (Nat.not_lt_zero _)
  | succ n =>
    have hlen : a.elements.length = n + 1 := ArrayOf.length_elements a
    by_cases hi : i ≥ n + 1
    · have hat : a.at_ i = Except.error (outOfRange i) := by
        simp [ArrayOf.at_, Array.at_, hi]
      refine ⟨⟨fun _ => hi, fun _ => ⟨_, hat⟩⟩, ?_, fun _ => hat, ?_, ?_, ?_⟩
      · intro e he
        rw [hat] at he
        cases he
        exact ⟨rfl, rfl, fun j hj => outOfRange_injective j i hj.symm⟩
      · intro h
        omega
      · intro h
        omega
      · intro h
        omega
    · have hat : ∀ h : i < a.elements.length,
          a.at_ i = Except.ok (a.elements.get ⟨i, h⟩) := by
        intro h
        simp [ArrayOf.at_, Array.at_, hi, ArrayOf.elements]
      have hlt : i < a.elements.length := by omega
      refine ⟨⟨?_, fun h => absurd h hi⟩, ?_, fun h => absurd h hi, hat, fun _ => ⟨hlt, hat hlt⟩, ?_⟩
      · rintro ⟨e, he⟩
        rw [hat hlt] at he
        cases he
      · intro e he
        rw [hat hlt] at he
        cases he
      · intro h
        omega


/-- Instance of C1 on `Array<int, 3>{1, 2, 3}`: `at(3)` throws with index 3, `at(1)` is 2. -/
theorem at_contract_witness :
    ((∃ e, ArrayOf.at_ (N := 3) (⟨[1, 2, 3], rfl⟩ : Array Nat 3) 3 = Except.error e) ↔ 3 ≥ 3) ∧
    ArrayOf.at_ (N := 3) (⟨[1, 2, 3], rfl⟩ : Array Nat 3) 1 = Except.ok 2 :=
  ⟨(at_contract 3 (⟨[1, 2, 3], rfl⟩ : Array Nat 3) 3).1,
   (at_contract 3 (⟨[1, 2, 3], rfl⟩ : Array Nat 3) 1).2.2.2.1 (by decide)⟩

/-! ### The store of handles -/

theorem lookup_filter_ne (l : List (Addr × UniquePtr)) (h k : Addr) :
    (l.filter (fun e => e.1 != h)).lookup k = if k = h then none else l.lookup k := by
  induction l with
  | nil => simp
  | cons e l ih =>
    obtain ⟨a, u⟩ := e
    by_cases hah : a = h
    · subst hah
      by_cases hk : k = a
      · subst hk
        simpa using ih
      · have hka : (k == a) = false := by simpa using hk
        simp [List.filter_cons, List.lookup_cons, hka, ih, hk]
    · have hne : (a != h) = true := by simpa using hah
      by_cases hk : k = a
      · subst hk
        simp [List.filter_cons, hne, List.lookup_cons, hah]
      · have hka : (k == a) = false := by simpa using hk
        simp [List.filter_cons, hne, List.lookup_cons, hka, ih]

theorem World.find_put (σ : World) (h k : Addr) (u : UniquePtr) :
    (σ.put h u).find k = if k = h then some u else σ.find k := by
  unfold World.find World.put
  by_cases hk : k = h
  · subst hk
    simp [List.lookup_cons]
  · have hkh : (k == h) = false := by simpa using hk
    simp [List.lookup_cons, hkh, lookup_filter_ne, hk]

theorem World.find_del (σ : World) (h k : Addr) :
    (σ.del h).find k = if k = h then none else σ.find k := by
  unfold World.find World.del
  exact lookup_filter_ne _ _ _

theorem World.find_releaseHeld (σ : World) (u : UniquePtr) (k : Addr) :
    (σ.releaseHeld u).find k = σ.find k := by
  unfold World.releaseHeld World.invoke World.find
  split <;> rfl

theorem World.calls_put (σ : World) (h : Addr) (u : UniquePtr) :
    (σ.put h u).calls = σ.calls := rfl

theorem World.calls_del (σ : World) (h : Addr) : (σ.del h).calls = σ.calls := rfl

theorem World.calls_releaseHeld (σ : World) (u : UniquePtr) :
    (σ.releaseHeld u).calls =
      σ.calls ++ (if u.p_ ≠ nullptr then [(⟨u.Deleter, u.p_⟩ : Call)] else []) := by
  unfold World.releaseHeld World.invoke
  split <;> simp

theorem mem_of_lookup (l : List (Addr × UniquePtr)) (k : Addr) (u : UniquePtr)
    (h : l.lookup k = some u) : (k, u) ∈ l := by
  induction l with
  | nil => simp at h
  | cons e l ih =>
    obtain ⟨a, v⟩ := e
    by_cases hk : k = a
    · subst hk
      simp [List.lookup_cons] at h
      subst h
      exact List.mem_cons_self _ _
    · have hka : (k == a) = false := by simpa using hk
      simp only [List.lookup_cons, hka] at h
      exact List.mem_cons_of_mem _ (ih h)

theorem World.holds_of_find (σ : World) (k : Addr) (u : UniquePtr)
    (h : σ.find k = some u) : σ.holds u.p_ = true := by
  unfold World.holds
  rw [List.any_eq_true]
  exact ⟨(k, u), mem_of_lookup _ _ _ h, by simp⟩

theorem World.get_eq (σ : World) (h : Addr) : σ.get h = (σ.find h).map (fun u => u.p_) := by
  unfold World.get
  cases σ.find h <;> rfl

theorem World.ctorMove_eq (σ : World) (h that : Addr) (u : UniquePtr)
    (hnew : σ.find h = none) (hthat : σ.find that = some u) :
    σ.ctorMove h that =
      some ((σ.put that ⟨u.Deleter, nullptr⟩).put h ⟨u.Deleter, u.p_⟩) := by
  simp only [World.ctorMove, hnew, hthat, exchange]

theorem World.ctorConv_eq (σ : World) (h that : Addr) (D : DeleterId) (u : UniquePtr)
    (hnew : σ.find h = none) (hthat : σ.find that = some u) :
    σ.ctorConv h D that =
      some ((σ.put that ⟨u.Deleter, nullptr⟩).put h ⟨D, u.p_⟩) := by
  simp only [World.ctorConv, hnew, hthat, exchange]

theorem World.moveAssign_eq (σ : World) (t s : Addr) (u v : UniquePtr)
    (ht : σ.find t = some u) (hs : σ.find s = some v) (hD : u.Deleter = v.Deleter)
    (hts : t ≠ s) :
    σ.moveAssign t s =
      some (((σ.releaseHeld u).put s ⟨v.Deleter, nullptr⟩).put t ⟨u.Deleter, v.p_⟩) := by
  simp only [World.moveAssign, ht, hs, exchange, hD, ne_eq, not_true_eq_false, if_false, hts,
    not_false_eq_true, if_true]

theorem World.moveAssign_self (σ : World) (h : Addr) (u : UniquePtr)
    (hh : σ.find h = some u) : σ.moveAssign h h = some σ := by
  simp only [World.moveAssign, hh, ne_eq, not_true_eq_false, if_false]

theorem World.dtor_eq (σ : World) (h : Addr) (u : UniquePtr) (hh : σ.find h = some u) :
    σ.dtor h = some ((σ.releaseHeld u).del h) := by
  simp only [World.dtor, hh]

theorem World.reset_eq (σ : World) (h : Addr) (p : Ptr) (u : UniquePtr)
    (hh : σ.find h = some u) :
    σ.reset h p = some ((σ.releaseHeld u).put h ⟨u.Deleter, p⟩) := by
  simp only [World.reset, hh]

theorem World.release_eq (σ : World) (h : Addr) (u : UniquePtr) (hh : σ.find h = some u) :
    σ.release h = some (u.p_, σ.put h ⟨u.Deleter, nullptr⟩) := by
  simp only [World.release, hh, exchange]

theorem World.ctorRaw_eq (σ : World) (h : Addr) (D : DeleterId) (p : Ptr)
    (hnew : σ.find h = none) : σ.ctorRaw h D p = some (σ.put h ⟨D, p⟩) := by
  simp only [World.ctorRaw, hnew]

/-- C4: move construction and converting construction from a live handle `that` holding `p`
(null or not) build a handle with `get() == p`, leave `that.get() == nullptr`, invoke no
`Deleter`, and touch no other handle; the move-constructed handle has the class of `that`,
the converted one the class `UniquePtr<T, D>` it was declared with. -/
theorem transfer_construct (σ : World) (h that : Addr) (D : DeleterId) (u : UniquePtr)
    (hnew : σ.find h = none) (hthat : σ.find that = some u) :
    (∃ σ1, σ.ctorMove h that = some σ1 ∧ σ1.get h = some u.p_ ∧
      σ1.get that = some nullptr ∧ σ1.calls = σ.calls ∧
      σ1.find h = some ⟨u.Deleter, u.p_⟩ ∧
      ∀ k, k ≠ h → k ≠ that → σ1.find k = σ.find k) ∧
    (∃ σ1, σ.ctorConv h D that = some σ1 ∧ σ1.get h = some u.p_ ∧
      σ1.get that = some nullptr ∧ σ1.calls = σ.calls ∧
      σ1.find h = some ⟨D, u.p_⟩ ∧
      ∀ k, k ≠ h → k ≠ that → σ1.find k = σ.find k) := by
  have hne : that ≠ h := by
    intro e
    rw [e, hnew] at hthat
    cases hthat
  constructor
  · refine ⟨_, World.ctorMove_eq σ h that u hnew hthat, ?_, ?_, rfl, ?_, ?_⟩
    · simp [World.get_eq, World.find_put]
    · simp [World.get_eq, World.find_put, hne]
    · simp [World.find_put]
    · intro k hk1 hk2
      simp [World.find_put, hk1, hk2]
  · refine ⟨_, World.ctorConv_eq σ h that D u hnew hthat, ?_, ?_, rfl, ?_, ?_⟩
    · simp [World.get_eq, World.find_put]
    · simp [World.get_eq, World.find_put, hne]
    · simp [World.find_put]
    · intro k hk1 hk2
      simp [World.find_put, hk1, hk2]

/-- Instance of C4: move-constructing handle 3 from handle 1 of `sampleWorld`, which owns
pointer 5. -/
theorem transfer_construct_witness :
    sampleWorld.find 3 = none ∧ sampleWorld.find 1 = some ⟨0, 5⟩ ∧
    ∃ σ1, sampleWorld.ctorMove 3 1 = some σ1 ∧ σ1.get 3 = some 5 ∧
      σ1.get 1 = some nullptr ∧ σ1.calls = sampleWorld.calls ∧
      σ1.find 3 = some ⟨0, 5⟩ ∧
      ∀ k, k ≠ 3 → k ≠ 1 → σ1.find k = sampleWorld.find k :=
  ⟨by decide, by decide,
    (transfer_construct sampleWorld 3 1 7 ⟨0, 5⟩ (by decide) (by decide)).1⟩

/-- C7: self move assignment `h = move(h)` on a live handle returns normally and leaves the
whole state as it was: `h.get()` is the same pointer, and no `Deleter` is invoked. -/
theorem moveAssign_self_noop (σ : World) (h : Addr) (u : UniquePtr)
    (hh : σ.find h = some u) :
    σ.moveAssign h h = some σ ∧
    ∀ σ1, σ.moveAssign h h = some σ1 →
      σ1.get h = some u.p_ ∧ σ1.get h = σ.get h ∧ σ1.calls = σ.calls ∧ σ1.find h = some u := by
  have e := World.moveAssign_self σ h u hh
  refine ⟨e, ?_⟩
  intro σ1 h1
  rw [e] at h1
  cases h1
  exact ⟨by simp [World.get_eq, hh], rfl, rfl, hh⟩

/-- Instance of C7: `h1 = move(h1)` in `sampleWorld`, where handle 1 owns pointer 5. -/
theorem moveAssign_self_noop_witness :
    sampleWorld.find 1 = some ⟨0, 5⟩ ∧ sampleWorld.moveAssign 1 1 = some sampleWorld :=
  ⟨by decide, (moveAssign_self_noop sampleWorld 1 ⟨0, 5⟩ (by decide)).1⟩

/-- C8: for a live handle `h` of release strategy `D` holding `a`, and any pointer `p`,
`h.reset(p)` invokes `D` on `a` once if `a` is non-null and makes no call if `a` is null;
the call is made in a state where `h` still holds `a`, and `p` is stored after it;
afterwards `h.get() == p`, and no other handle is touched.  With the default argument,
`h.reset()` leaves `h.get() == nullptr`. -/
theorem reset_contract (σ : World) (h : Addr) (D : DeleterId) (a p : Ptr)
    (hh : σ.find h = some ⟨D, a⟩) :
    (∃ σ1, σ.reset h p = some σ1 ∧
      σ1.calls = σ.calls ++ (if a ≠ nullptr then [(⟨D, a⟩ : Call)] else []) ∧
      σ1.get h = some p ∧
      (σ.releaseHeld ⟨D, a⟩).get h = some a ∧
      σ1 = (σ.releaseHeld ⟨D, a⟩).put h ⟨D, p⟩ ∧
      (σ.releaseHeld ⟨D, a⟩).calls = σ1.calls ∧
      (∀ k, k ≠ h → σ1.find k = σ.find k)) ∧
    (∃ σ1, σ.reset h nullptr = some σ1 ∧ σ1.get h = some nullptr) := by
  refine ⟨⟨_, World.reset_eq σ h p _ hh, ?_, ?_, ?_, rfl, rfl, ?_⟩,
    ⟨_, World.reset_eq σ h nullptr _ hh, ?_⟩⟩
  · simp [World.calls_put, World.calls_releaseHeld]
  · simp [World.get_eq, World.find_put]
  · simp [World.get_eq, World.find_releaseHeld, hh]
  · intro k hk
    simp [World.find_put, World.find_releaseHeld, hk]
  · simp [World.get_eq, World.find_put]

/-- Instance of C8: `h1.reset(9)` in `sampleWorld`, where handle 1 owns pointer 5. -/
theorem reset_contract_witness :
    sampleWorld.find 1 = some ⟨0, 5⟩ ∧
    ∃ σ1, sampleWorld.reset 1 9 = some σ1 ∧
      σ1.calls = sampleWorld.calls ++ (if (5 : Ptr) ≠ nullptr then [(⟨0, 5⟩ : Call)] else []) ∧
      σ1.get 1 = some 9 ∧
      (sampleWorld.releaseHeld ⟨0, 5⟩).get 1 = some 5 ∧
      σ1 = (sampleWorld.releaseHeld ⟨0, 5⟩).put 1 ⟨0, 9⟩ ∧
      (sampleWorld.releaseHeld ⟨0, 5⟩).calls = σ1.calls ∧
      (∀ k, k ≠ 1 → σ1.find k = sampleWorld.find k) :=
  ⟨by decide, (reset_contract sampleWorld 1 0 5 9 (by decide)).1⟩

/-- C9: a handle `h` constructed from a raw pointer `p` has `h.get() == p`; `get` leaves
the state as it is; `q = h.release()` then returns `q == p` and leaves
`h.get() == nullptr` with no `Deleter` call, and destroying `h` after that makes no
`Deleter` call either. -/
theorem construct_get_release (σ : World) (h : Addr) (D : DeleterId) (p : Ptr)
    (hnew : σ.find h = none) :
    ∃ σ1, σ.ctorRaw h D p = some σ1 ∧ σ1.get h = some p ∧ step σ1 (.get h) = some σ1 ∧
      ∃ σ2, σ1.release h = some (p, σ2) ∧ σ2.get h = some nullptr ∧ σ2.calls = σ.calls ∧
        ∃ σ3, σ2.dtor h = some σ3 ∧ σ3.calls = σ.calls ∧ σ3.find h = none := by
  have h1 : (σ.put h ⟨D, p⟩).find h = some ⟨D, p⟩ := by simp [World.find_put]
  have h2 : ((σ.put h ⟨D, p⟩).put h ⟨D, nullptr⟩).find h = some ⟨D, nullptr⟩ := by
    simp [World.find_put]
  refine ⟨_, World.ctorRaw_eq σ h D p hnew, ?_, ?_, _, World.release_eq _ h _ h1, ?_, rfl,
    _, World.dtor_eq _ h _ h2, ?_, ?_⟩
  · simp [World.get_eq, h1]
  · simp [step, World.get_eq, h1]
  · simp [World.get_eq, h2]
  · simp [World.calls_del, World.calls_releaseHeld, World.calls_put]
  · simp [World.find_del]

/-- Instance of C9: constructing handle 3 from pointer 8 in `sampleWorld`. -/
theorem construct_get_release_witness :
    sampleWorld.find 3 = none ∧
    ∃ σ1, sampleWorld.ctorRaw 3 0 8 = some σ1 ∧ σ1.get 3 = some 8 ∧
      step σ1 (.get 3) = some σ1 ∧
      ∃ σ2, σ1.release 3 = some (8, σ2) ∧ σ2.get 3 = some nullptr ∧
        σ2.calls = sampleWorld.calls ∧
        ∃ σ3, σ2.dtor 3 = some σ3 ∧ σ3.calls = sampleWorld.calls ∧ σ3.find 3 = none :=
  ⟨by decide, construct_get_release sampleWorld 3 0 8 (by decide)⟩

/-! ### Runs -/

theorem run_cons {σ σ1 : World} {op : Op} {ops : List Op} (h : step σ op = some σ1) :
    run σ (op :: ops) = run σ1 ops := by
  simp [run, h]

theorem run_append (σ : World) (xs ys : List Op) :
    run σ (xs ++ ys) = (run σ xs).bind (fun σ1 => run σ1 ys) := by
  induction xs generalizing σ with
  | nil => simp [run]
  | cons x xs ih =>
    simp only [List.cons_append, run]
    cases step σ x with
    | none => simp
    | some σ1 => simpa using ih σ1

/-- C5 as stated fails: handle 1 of `derivedWorld` has release strategy 1 (`UDeleter`) and
owns pointer 5; converting it into handle 2 of a class with release strategy 0 and then
destroying handle 2 (and handle 1) invokes strategy 0 on pointer 5, and strategy 1 never. -/
theorem convert_drops_source_deleter :
    derivedWorld.find 1 = some ⟨1, 5⟩ ∧
    ∃ σ3, run derivedWorld [.ctorConv 2 0 1, .dtor 2, .dtor 1] = some σ3 ∧
      σ3.calls = [⟨0, 5⟩] ∧ (⟨1, 5⟩ : Call) ∉ σ3.calls := by
  refine ⟨by decide, ⟨[], [⟨0, 5⟩]⟩, by decide, by decide, by decide⟩

/-- C5, amended: when a handle `that` of release strategy `UD` owning a non-null `p` is
converted into a new handle `h` of class `UniquePtr<T, D>`, the destruction of `h` invokes
`D`, the release strategy of the class of `h`, on `p`, exactly once; the destruction of the
emptied source invokes nothing, whichever of the two is destroyed first.  So the strategy
that runs is the source's only when `D` and `UD` are the same. -/
theorem convert_then_destroy (σ : World) (h that : Addr) (D UD : DeleterId) (p : Ptr)
    (hp : p ≠ nullptr) (hnew : σ.find h = none) (hthat : σ.find that = some ⟨UD, p⟩) :
    (∃ σ3, run σ [.ctorConv h D that, .dtor h, .dtor that] = some σ3 ∧
      σ3.calls = σ.calls ++ [⟨D, p⟩]) ∧
    (∃ σ3, run σ [.ctorConv h D that, .dtor that, .dtor h] = some σ3 ∧
      σ3.calls = σ.calls ++ [⟨D, p⟩]) ∧
    (D = UD → ∃ σ3, run σ [.ctorConv h D that, .dtor h, .dtor that] = some σ3 ∧
      σ3.calls = σ.calls ++ [⟨UD, p⟩]) := by
  have hne : that ≠ h := by
    intro e
    rw [e, hnew] at hthat
    cases hthat
  have e1 : step σ (.ctorConv h D that) =
      some ((σ.put that ⟨UD, nullptr⟩).put h ⟨D, p⟩) :=
    World.ctorConv_eq σ h that D _ hnew hthat
  have key : ∃ σ3, run σ [.ctorConv h D that, .dtor h, .dtor that] = some σ3 ∧
      σ3.calls = σ.calls ++ [⟨D, p⟩] := by
    have f1 : ((σ.put that ⟨UD, nullptr⟩).put h ⟨D, p⟩).find h = some ⟨D, p⟩ := by
      simp [World.find_put]
    have e2 : step _ (.dtor h) = some _ := World.dtor_eq _ h _ f1
    have f2 : ((((σ.put that ⟨UD, nullptr⟩).put h ⟨D, p⟩).releaseHeld ⟨D, p⟩).del h).find that
        = some ⟨UD, nullptr⟩ := by
      simp [World.find_del, World.find_releaseHeld, World.find_put, hne]
    have e3 : step _ (.dtor that) = some _ := World.dtor_eq _ that _ f2
    rw [run_cons e1, run_cons e2, run_cons e3]
    refine ⟨_, rfl, ?_⟩
    simp [World.calls_del, World.calls_releaseHeld, World.calls_put, hp]
  refine ⟨key, ?_, fun e => e ▸ key⟩
  have f1 : ((σ.put that ⟨UD, nullptr⟩).put h ⟨D, p⟩).find that = some ⟨UD, nullptr⟩ := by
    simp [World.find_put, hne]
  have e2 : step _ (.dtor that) = some _ := World.dtor_eq _ that _ f1
  have f2 : ((((σ.put that ⟨UD, nullptr⟩).put h ⟨D, p⟩).releaseHeld ⟨UD, nullptr⟩).del
      that).find h = some ⟨D, p⟩ := by
    simp [World.find_del, World.find_releaseHeld, World.find_put, hne.symm]
  have e3 : step _ (.dtor h) = some _ := World.dtor_eq _ h _ f2
  rw [run_cons e1, run_cons e2, run_cons e3]
  refine ⟨_, rfl, ?_⟩
  simp [World.calls_del, World.calls_releaseHeld, World.calls_put, hp]

/-- Instance of the amended C5 on `derivedWorld`: converting handle 1 (strategy 1, pointer 5)
into handle 2 of strategy 0. -/
theorem convert_then_destroy_witness :
    (5 : Ptr) ≠ nullptr ∧ derivedWorld.find 2 = none ∧ derivedWorld.find 1 = some ⟨1, 5⟩ ∧
    ∃ σ3, run derivedWorld [.ctorConv 2 0 1, .dtor 2, .dtor 1] = some σ3 ∧
      σ3.calls = derivedWorld.calls ++ [⟨0, 5⟩] :=
  ⟨by decide, by decide, by decide,
    (convert_then_destroy derivedWorld 2 1 0 1 5 (by decide) (by decide) (by decide)).1⟩

/-! ### What a successful operation did -/

theorem World.ctorNull_some {σ σ1 : World} {h : Addr} {D : DeleterId}
    (hs : σ.ctorNull h D = some σ1) :
    σ.find h = none ∧ σ1 = σ.put h ⟨D, nullptr⟩ := by
  cases hf : σ.find h <;> simp [World.ctorNull, hf] at hs
  exact ⟨rfl, hs.symm⟩

theorem World.ctorRaw_some {σ σ1 : World} {h : Addr} {D : DeleterId} {p : Ptr}
    (hs : σ.ctorRaw h D p = some σ1) :
    σ.find h = none ∧ σ1 = σ.put h ⟨D, p⟩ := by
  cases hf : σ.find h <;> simp [World.ctorRaw, hf] at hs
  exact ⟨rfl, hs.symm⟩

theorem World.ctorConv_some {σ σ1 : World} {h that : Addr} {D : DeleterId}
    (hs : σ.ctorConv h D that = some σ1) :
    σ.find h = none ∧ ∃ u, σ.find that = some u ∧
      σ1 = (σ.put that ⟨u.Deleter, nullptr⟩).put h ⟨D, u.p_⟩ := by
  cases hf : σ.find h <;> cases ht : σ.find that <;>
    simp [World.ctorConv, hf, ht, exchange] at hs
  exact ⟨rfl, _, rfl, hs.symm⟩

theorem World.ctorMove_some {σ σ1 : World} {h that : Addr}
    (hs : σ.ctorMove h that = some σ1) :
    σ.find h = none ∧ ∃ u, σ.find that = some u ∧
      σ1 = (σ.put that ⟨u.Deleter, nullptr⟩).put h ⟨u.Deleter, u.p_⟩ := by
  cases hf : σ.find h <;> cases ht : σ.find that <;>
    simp [World.ctorMove, hf, ht, exchange] at hs
  exact ⟨rfl, _, rfl, hs.symm⟩

theorem World.dtor_some {σ σ1 : World} {h : Addr} (hs : σ.dtor h = some σ1) :
    ∃ u, σ.find h = some u ∧ σ1 = (σ.releaseHeld u).del h := by
  cases hf : σ.find h <;> simp [World.dtor, hf] at hs
  exact ⟨_, rfl, hs.symm⟩

theorem World.moveAssign_some {σ σ1 : World} {t s : Addr}
    (hs : σ.moveAssign t s = some σ1) :
    ∃ u v, σ.find t = some u ∧ σ.find s = some v ∧ u.Deleter = v.Deleter ∧
      ((t = s ∧ σ1 = σ) ∨
       (t ≠ s ∧ σ1 = ((σ.releaseHeld u).put s ⟨v.Deleter, nullptr⟩).put t
          ⟨u.Deleter, v.p_⟩)) := by
  cases hf : σ.find t with
  | none => simp [World.moveAssign, hf] at hs
  | some u =>
    cases ht : σ.find s with
    | none => simp [World.moveAssign, hf, ht] at hs
    | some v =>
      by_cases hD : u.Deleter = v.Deleter
      · by_cases hts : t = s
        · subst hts
          rw [World.moveAssign_self σ t u hf] at hs
          cases hs
          exact ⟨u, v, rfl, rfl, hD, Or.inl ⟨rfl, rfl⟩⟩
        · rw [World.moveAssign_eq σ t s u v hf ht hD hts] at hs
          cases hs
          exact ⟨u, v, rfl, rfl, hD, Or.inr ⟨hts, rfl⟩⟩
      · simp [World.moveAssign, hf, ht, hD] at hs

theorem World.release_some {σ : World} {h : Addr} {r : Ptr × World}
    (hs : σ.release h = some r) :
    ∃ u, σ.find h = some u ∧ r = (u.p_, σ.put h ⟨u.Deleter, nullptr⟩) := by
  cases hf : σ.find h <;> simp [World.release, hf, exchange] at hs
  exact ⟨_, rfl, hs.symm⟩

theorem World.reset_some {σ σ1 : World} {h : Addr} {p : Ptr}
    (hs : σ.reset h p = some σ1) :
    ∃ u, σ.find h = some u ∧ σ1 = (σ.releaseHeld u).put h ⟨u.Deleter, p⟩ := by
  cases hf : σ.find h <;> simp [World.reset, hf] at hs
  exact ⟨_, rfl, hs.symm⟩

/-- The calls that one operation adds are calls on a non-null pointer that a live handle of
that release strategy held when the operation began. -/
theorem step_calls {σ σ1 : World} {op : Op} (hs : step σ op = some σ1) :
    ∃ new, σ1.calls = σ.calls ++ new ∧ new.length ≤ 1 ∧
      ∀ c ∈ new, c.arg ≠ nullptr ∧ ∃ k, σ.find k = some ⟨c.deleter, c.arg⟩ := by
  have rel : ∀ (k : Addr) (u : UniquePtr), σ.find k = some u →
      ∃ new, (σ.releaseHeld u).calls = σ.calls ++ new ∧ new.length ≤ 1 ∧
        ∀ c ∈ new, c.arg ≠ nullptr ∧ ∃ k, σ.find k = some ⟨c.deleter, c.arg⟩ := by
    intro k u hk
    refine ⟨_, World.calls_releaseHeld σ u, ?_, ?_⟩
    · split <;> simp
    · intro c hc
      by_cases hp : u.p_ = nullptr
      · simp [hp] at hc
      · simp [hp] at hc
        subst hc
        exact ⟨hp, k, hk⟩
  have same : σ1.calls = σ.calls →
      ∃ new, σ1.calls = σ.calls ++ new ∧ new.length ≤ 1 ∧
        ∀ c ∈ new, c.arg ≠ nullptr ∧ ∃ k, σ.find k = some ⟨c.deleter, c.arg⟩ :=
    fun e => ⟨[], by simpa using e, by simp, by simp⟩
  cases op with
  | ctorNull h D =>
    obtain ⟨-, rfl⟩ := World.ctorNull_some hs
    exact same rfl
  | ctorRaw h D p =>
    obtain ⟨-, rfl⟩ := World.ctorRaw_some hs
    exact same rfl
  | ctorConv h D that =>
    obtain ⟨-, u, -, rfl⟩ := World.ctorConv_some hs
    exact same rfl
  | ctorMove h that =>
    obtain ⟨-, u, -, rfl⟩ := World.ctorMove_some hs
    exact same rfl
  | dtor h =>
    obtain ⟨u, hu, rfl⟩ := World.dtor_some hs
    exact rel h u hu
  | moveAssign t s =>
    obtain ⟨u, v, hu, -, -, ⟨-, rfl⟩ | ⟨-, rfl⟩⟩ := World.moveAssign_some hs
    · exact same rfl
    · exact rel t u hu
  | get h =>
    simp only [step, Option.map_eq_some'] at hs
    obtain ⟨_, -, rfl⟩ := hs
    exact same rfl
  | release h =>
    simp only [step, Option.map_eq_some'] at hs
    obtain ⟨r, hr, rfl⟩ := hs
    obtain ⟨u, -, rfl⟩ := World.release_some hr
    exact same rfl
  | reset h p =>
    obtain ⟨u, hu, rfl⟩ := World.reset_some hs
    exact rel h u hu

theorem run_calls {σ σ1 : World} {ops : List Op} (hr : run σ ops = some σ1) :
    ∃ new, σ1.calls = σ.calls ++ new ∧ ∀ c ∈ new, c.arg ≠ nullptr := by
  induction ops generalizing σ with
  | nil =>
    simp only [run, Option.some.injEq] at hr
    subst hr
    exact ⟨[], by simp, by simp⟩
  | cons op ops ih =>
    cases hs : step σ op with
    | none => simp [run, hs] at hr
    | some σ2 =>
      rw [run_cons hs] at hr
      obtain ⟨n1, e1, -, h1⟩ := step_calls hs
      obtain ⟨n2, e2, h2⟩ := ih hr
      refine ⟨n1 ++ n2, by rw [e2, e1, List.append_assoc], ?_⟩
      intro c hc
      rcases List.mem_append.1 hc with h | h
      · exact (h1 c h).1
      · exact h2 c h

/-- C10: the `Deleter` is never invoked with a null pointer.  Every operation that succeeds
adds at most one call, and a call it adds is on a non-null pointer held, when the operation
began, by a live handle of that release strategy; so along any sequence of operations all
added calls have a non-null argument, and every call made since the initial state has one.
Destroying an Empty handle makes no call: it only ends the handle. -/
theorem deleter_never_null :
    (∀ (σ σ1 : World) (op : Op), step σ op = some σ1 →
      ∃ new, σ1.calls = σ.calls ++ new ∧ new.length ≤ 1 ∧
        ∀ c ∈ new, c.arg ≠ nullptr ∧ ∃ k, σ.find k = some ⟨c.deleter, c.arg⟩) ∧
    (∀ (σ σ1 : World) (ops : List Op), run σ ops = some σ1 →
      ∃ new, σ1.calls = σ.calls ++ new ∧ ∀ c ∈ new, c.arg ≠ nullptr) ∧
    (∀ (σ1 : World) (ops : List Op), run World.init ops = some σ1 →
      ∀ c ∈ σ1.calls, c.arg ≠ nullptr) ∧
    (∀ (σ : World) (h : Addr) (D : DeleterId), σ.find h = some ⟨D, nullptr⟩ →
      σ.dtor h = some (σ.del h) ∧ (σ.del h).calls = σ.calls) := by
  refine ⟨fun σ σ1 op hs => step_calls hs, fun σ σ1 ops hr => run_calls hr, ?_, ?_⟩
  · intro σ1 ops hr c hc
    obtain ⟨new, e, h⟩ := run_calls hr
    rw [e] at hc
    exact h c (by simpa [World.init] using hc)
  · intro σ h D hh
    refine ⟨?_, rfl⟩
    rw [World.dtor_eq σ h _ hh]
    simp [World.releaseHeld]

/-- Instance of C10: destroying the Empty handle 2 of `sampleWorld` makes no call, and the
run that empties handle 1 by `reset` and destroys both handles calls the `Deleter` on
pointer 5 only. -/
theorem deleter_never_null_witness :
    (sampleWorld.dtor 2 = some (sampleWorld.del 2) ∧
      (sampleWorld.del 2).calls = sampleWorld.calls) ∧
    ∃ new, (⟨[], [⟨0, 5⟩]⟩ : World).calls = sampleWorld.calls ++ new ∧
      ∀ c ∈ new, c.arg ≠ nullptr :=
  ⟨deleter_never_null.2.2.2 sampleWorld 2 0 (by decide),
   deleter_never_null.2.1 sampleWorld ⟨[], [⟨0, 5⟩]⟩ [.reset 1 nullptr, .dtor 1, .dtor 2]
     (by decide)⟩

/-! ### Exclusive ownership as an invariant -/

theorem World.not_holds {σ : World} {p : Ptr} (hp : σ.holds p = false) (k : Addr)
    (u : UniquePtr) (hk : σ.find k = some u) : u.p_ ≠ p := by
  intro e
  have := σ.holds_of_find k u hk
  rw [e, hp] at this
  cases this

theorem fresh_ptr {σ : World} {p : Ptr} (hf : (p == nullptr || !σ.holds p) = true)
    (k : Addr) (u : UniquePtr) (hk : σ.find k = some u) (hnn : u.p_ ≠ nullptr) :
    u.p_ ≠ p := by
  intro e
  rcases Bool.or_eq_true_iff.1 hf with h | h
  · exact hnn (e.trans (by simpa using h))
  · have h1 : σ.holds p = false := by simpa using h
    exact World.not_holds h1 k u hk e

/-- Writing a null pointer into a handle keeps exclusive ownership. -/
theorem Exclusive.put_null {σ : World} (hx : Exclusive σ) (h : Addr) (D : DeleterId) :
    Exclusive (σ.put h ⟨D, nullptr⟩) := by
  intro a b u v ha hb hnn heq
  rw [World.find_put] at ha hb
  by_cases h1 : a = h
  · rw [if_pos h1] at ha
    cases ha
    exact absurd rfl hnn
  · rw [if_neg h1] at ha
    by_cases h2 : b = h
    · rw [if_pos h2] at hb
      cases hb
      exact absurd heq hnn
    · rw [if_neg h2] at hb
      exact hx a b u v ha hb hnn heq

/-- Writing into a handle a pointer that no other live handle holds keeps exclusive
ownership. -/
theorem Exclusive.put_fresh {σ : World} (hx : Exclusive σ) (h : Addr) (w : UniquePtr)
    (hf : ∀ k u, k ≠ h → σ.find k = some u → u.p_ ≠ nullptr → u.p_ ≠ w.p_) :
    Exclusive (σ.put h w) := by
  intro a b u v ha hb hnn heq
  rw [World.find_put] at ha hb
  by_cases h1 : a = h
  · by_cases h2 : b = h
    · rw [h1, h2]
    · rw [if_pos h1] at ha
      rw [if_neg h2] at hb
      cases ha
      exact absurd heq.symm (hf b v h2 hb (heq ▸ hnn))
  · rw [if_neg h1] at ha
    by_cases h2 : b = h
    · rw [if_pos h2] at hb
      cases hb
      exact absurd heq (hf a u h1 ha hnn)
    · rw [if_neg h2] at hb
      exact hx a b u v ha hb hnn heq

theorem Exclusive.del {σ : World} (hx : Exclusive σ) (h : Addr) : Exclusive (σ.del h) := by
  intro a b u v ha hb hnn heq
  rw [World.find_del] at ha hb
  by_cases h1 : a = h
  · rw [if_pos h1] at ha
    cases ha
  · rw [if_neg h1] at ha
    by_cases h2 : b = h
    · rw [if_pos h2] at hb
      cases hb
    · rw [if_neg h2] at hb
      exact hx a b u v ha hb hnn heq

theorem Exclusive.releaseHeld {σ : World} (hx : Exclusive σ) (w : UniquePtr) :
    Exclusive (σ.releaseHeld w) := by
  intro a b u v ha hb hnn heq
  rw [World.find_releaseHeld] at ha hb
  exact hx a b u v ha hb hnn heq

/-- A transfer from `s` to `t` (the target's old pointer already dealt with) keeps exclusive
ownership. -/
theorem Exclusive.transfer {σ : World} (hx : Exclusive σ) (t s : Addr) (D E : DeleterId)
    (v : UniquePtr) (hs : σ.find s = some v) :
    Exclusive ((σ.put s ⟨E, nullptr⟩).put t ⟨D, v.p_⟩) := by
  apply Exclusive.put_fresh (hx.put_null s E)
  intro k u hk hf hnn heq
  rw [World.find_put] at hf
  by_cases h1 : k = s
  · rw [if_pos h1] at hf
    cases hf
    exact hnn rfl
  · rw [if_neg h1] at hf
    exact h1 (hx k s u v hf hs hnn heq)

/-- One admissible operation keeps exclusive ownership, and keeps every moved-from handle
null. -/
theorem inv_step {σ σ1 : World} {op : Op} {m : Addr → Bool}
    (hs : step σ op = some σ1) (hf : op.fresh σ = true) (hx : Exclusive σ)
    (hm : ∀ k u, m k = true → σ.find k = some u → u.p_ = nullptr) :
    Exclusive σ1 ∧ ∀ k u, op.mark m k = true → σ1.find k = some u → u.p_ = nullptr := by
  cases op with
  | ctorNull h D =>
    obtain ⟨-, rfl⟩ := World.ctorNull_some hs
    refine ⟨hx.put_null h D, ?_⟩
    intro k u hk hu
    simp only [Op.mark] at hk
    rw [World.find_put] at hu
    by_cases h1 : k = h
    · simp [h1] at hk
    · rw [if_neg h1] at hk hu
      exact hm k u hk hu
  | ctorRaw h D p =>
    obtain ⟨-, rfl⟩ := World.ctorRaw_some hs
    refine ⟨hx.put_fresh h _ (fun k u _ hu hnn => fresh_ptr hf k u hu hnn), ?_⟩
    intro k u hk hu
    simp only [Op.mark] at hk
    rw [World.find_put] at hu
    by_cases h1 : k = h
    · simp [h1] at hk
    · rw [if_neg h1] at hk hu
      exact hm k u hk hu
  | ctorConv h D that =>
    obtain ⟨-, v, hv, rfl⟩ := World.ctorConv_some hs
    refine ⟨hx.transfer h that D _ v hv, ?_⟩
    intro k u hk hu
    simp only [Op.mark] at hk
    rw [World.find_put, World.find_put] at hu
    by_cases h1 : k = h
    · simp [h1] at hk
    · rw [if_neg h1] at hk hu
      by_cases h2 : k = that
      · rw [if_pos h2] at hu
        cases hu
        rfl
      · rw [if_neg h2] at hk hu
        exact hm k u hk hu
  | ctorMove h that =>
    obtain ⟨-, v, hv, rfl⟩ := World.ctorMove_some hs
    refine ⟨hx.transfer h that _ _ v hv, ?_⟩
    intro k u hk hu
    simp only [Op.mark] at hk
    rw [World.find_put, World.find_put] at hu
    by_cases h1 : k = h
    · simp [h1] at hk
    · rw [if_neg h1] at hk hu
      by_cases h2 : k = that
      · rw [if_pos h2] at hu
        cases hu
        rfl
      · rw [if_neg h2] at hk hu
        exact hm k u hk hu
  | dtor h =>
    obtain ⟨w, -, rfl⟩ := World.dtor_some hs
    refine ⟨(hx.releaseHeld w).del h, ?_⟩
    intro k u hk hu
    simp only [Op.mark] at hk
    rw [World.find_del, World.find_releaseHeld] at hu
    by_cases h1 : k = h
    · simp [h1] at hk
    · rw [if_neg h1] at hk hu
      exact hm k u hk hu
  | moveAssign t s =>
    obtain ⟨w, v, -, hv, -, ⟨hts, rfl⟩ | ⟨hts, rfl⟩⟩ := World.moveAssign_some hs
    · refine ⟨hx, ?_⟩
      intro k u hk hu
      simp only [Op.mark, if_pos hts] at hk
      exact hm k u hk hu
    · have hv1 : (σ.releaseHeld w).find s = some v := by rw [World.find_releaseHeld]; exact hv
      refine ⟨(hx.releaseHeld w).transfer t s _ _ v hv1, ?_⟩
      intro k u hk hu
      simp only [Op.mark, if_neg hts] at hk
      rw [World.find_put, World.find_put, World.find_releaseHeld] at hu
      by_cases h1 : k = t
      · simp [h1] at hk
      · rw [if_neg h1] at hk hu
        by_cases h2 : k = s
        · rw [if_pos h2] at hu
          cases hu
          rfl
        · rw [if_neg h2] at hk hu
          exact hm k u hk hu
  | get h =>
    simp only [step, Option.map_eq_some'] at hs
    obtain ⟨_, -, rfl⟩ := hs
    exact ⟨hx, hm⟩
  | release h =>
    simp only [step, Option.map_eq_some'] at hs
    obtain ⟨r, hr, rfl⟩ := hs
    obtain ⟨w, -, rfl⟩ := World.release_some hr
    refine ⟨hx.put_null h _, ?_⟩
    intro k u hk hu
    simp only [Op.mark] at hk
    rw [World.find_put] at hu
    by_cases h1 : k = h
    · rw [if_pos h1] at hu
      cases hu
      rfl
    · rw [if_neg h1] at hu
      exact hm k u hk hu
  | reset h p =>
    obtain ⟨w, -, rfl⟩ := World.reset_some hs
    refine ⟨(hx.releaseHeld w).put_fresh h _ ?_, ?_⟩
    · intro k u _ hu hnn
      rw [World.find_releaseHeld] at hu
      exact fresh_ptr hf k u hu hnn
    · intro k u hk hu
      simp only [Op.mark] at hk
      rw [World.find_put, World.find_releaseHeld] at hu
      by_cases h1 : k = h
      · simp [h1] at hk
      · rw [if_neg h1] at hk hu
        exact hm k u hk hu

theorem inv_run {ops : List Op} : ∀ {σ σ1 : World} {m : Addr → Bool},
    run σ ops = some σ1 → admissible σ ops = true → Exclusive σ →
    (∀ k u, m k = true → σ.find k = some u → u.p_ = nullptr) →
    Exclusive σ1 ∧
      ∀ k u, ops.foldl Op.mark m k = true → σ1.find k = some u → u.p_ = nullptr := by
  induction ops with
  | nil =>
    intro σ σ1 m hr _ hx hm
    simp only [run, Option.some.injEq] at hr
    subst hr
    exact ⟨hx, hm⟩
  | cons op ops ih =>
    intro σ σ1 m hr ha hx hm
    cases hs : step σ op with
    | none => simp [run, hs] at hr
    | some σ2 =>
      rw [run_cons hs] at hr
      simp only [admissible, hs, Bool.and_eq_true] at ha
      obtain ⟨hx2, hm2⟩ := inv_step hs ha.1 hx hm
      exact ih hr ha.2 hx2 hm2

theorem exclusive_init : Exclusive World.init := by
  intro a b u v ha
  simp [World.init, World.find] at ha

/-- C2: exclusive ownership is an invariant.  In every state reached from the initial state
by a sequence of public operations (the four constructors, destruction, move assignment,
`get`, `release`, `reset`) in which each raw pointer handed to a constructor or to `reset`
is null or held by no live handle at that moment, no two live handles hold the same
non-null pointer, and every moved-from handle holds null. -/
theorem exclusive_ownership (ops : List Op) (σ : World)
    (hrun : run World.init ops = some σ) (hadm : admissible World.init ops = true) :
    Exclusive σ ∧ ∀ h u, movedFrom ops h = true → σ.find h = some u → u.p_ = nullptr :=
  inv_run hrun hadm exclusive_init (fun _ _ hk => by cases hk)

/-- Instance of C2 on `sampleProgram`: it runs and is admissible; at its end handle 4 owns
pointer 5, handles 1 and 3 are Empty, handle 1 is moved-from, and pointer 7 was released. -/
theorem exclusive_ownership_witness :
    run World.init sampleProgram
      = some ⟨[(4, ⟨0, 5⟩), (3, ⟨0, nullptr⟩), (1, ⟨0, nullptr⟩)], [⟨0, 7⟩]⟩ ∧
    admissible World.init sampleProgram = true ∧
    movedFrom sampleProgram 1 = true ∧
    (Exclusive ⟨[(4, ⟨0, 5⟩), (3, ⟨0, nullptr⟩), (1, ⟨0, nullptr⟩)], [⟨0, 7⟩]⟩ ∧
      ∀ h u, movedFrom sampleProgram h = true →
        World.find ⟨[(4, ⟨0, 5⟩), (3, ⟨0, nullptr⟩), (1, ⟨0, nullptr⟩)], [⟨0, 7⟩]⟩ h = some u →
        u.p_ = nullptr) :=
  ⟨by decide, by decide, by decide,
    exclusive_ownership sampleProgram _ (by decide) (by decide)⟩

/-! ### Move chains -/

/-- One link of a chain: the transfer runs, makes no call, leaves the pointer in the target
and null in the source, and touches nothing else. -/
theorem link_step (σ : World) (src : Addr) (l : Link) (D : DeleterId) (p : Ptr)
    (hsrc : σ.find src = some ⟨D, p⟩) (hl : l.ready σ D) (hne : l.dst ≠ src) :
    ∃ σ2, step σ (l.op src) = some σ2 ∧ σ2.calls = σ.calls ∧
      σ2.find l.dst = some ⟨D, p⟩ ∧ σ2.find src = some ⟨D, nullptr⟩ ∧
      ∀ k, k ≠ src → k ≠ l.dst → σ2.find k = σ.find k := by
  cases l with
  | construct d =>
    simp only [Link.ready] at hl
    simp only [Link.dst] at hne ⊢
    refine ⟨_, World.ctorMove_eq σ d src _ hl hsrc, rfl, ?_, ?_, ?_⟩
    · simp [World.find_put]
    · simp [World.find_put, hne.symm]
    · intro k h1 h2
      simp [World.find_put, h1, h2]
  | assign d =>
    simp only [Link.ready] at hl
    simp only [Link.dst] at hne ⊢
    refine ⟨_, World.moveAssign_eq σ d src _ _ hl hsrc rfl hne, ?_, ?_, ?_, ?_⟩
    · simp [World.calls_put, World.calls_releaseHeld]
    · simp [World.find_put]
    · simp [World.find_put, hne.symm]
    · intro k h1 h2
      simp [World.find_put, World.find_releaseHeld, h1, h2]

/-- A whole chain runs, makes no call, and ends with the pointer in the last handle and
null in every other handle of the chain. -/
theorem chain_run (σ : World) (D : DeleterId) (p : Ptr) (ls : List Link) :
    ∀ (τ : World) (seen : List Addr) (src : Addr),
      src ∈ seen →
      τ.find src = some ⟨D, p⟩ →
      (∀ x ∈ seen, x ≠ src → τ.find x = some ⟨D, nullptr⟩) →
      (∀ k, k ∉ seen → τ.find k = σ.find k) →
      chainReady σ D seen src ls = true →
      ∃ τ1, run τ (chainOps src ls) = some τ1 ∧ τ1.calls = τ.calls ∧
        τ1.find (chainLast src ls) = some ⟨D, p⟩ ∧
        (∀ x ∈ seen ++ ls.map Link.dst, x ≠ chainLast src ls →
          τ1.find x = some ⟨D, nullptr⟩) := by
  induction ls with
  | nil =>
    intro τ seen src _ hsrc hnull _ _
    refine ⟨τ, rfl, rfl, hsrc, ?_⟩
    intro x hx hne
    simp only [List.map_nil, List.append_nil] at hx
    exact hnull x hx hne
  | cons l ls ih =>
    intro τ seen src hmem hsrc hnull hframe hready
    have hl : l.ready τ D ∧ l.dst ≠ src ∧ chainReady σ D (l.dst :: seen) l.dst ls = true := by
      cases l with
      | construct d =>
        simp only [chainReady, Bool.and_eq_true, decide_eq_true_eq] at hready
        obtain ⟨⟨h1, h2⟩, h3⟩ := hready
        have e0 : d ≠ src := fun e => h2 (e ▸ hmem)
        refine ⟨?_, e0, h3⟩
        show τ.find d = none
        rw [hframe d h2]
        exact h1
      | assign d =>
        simp only [chainReady, Bool.and_eq_true, decide_eq_true_eq] at hready
        obtain ⟨⟨h1, h2⟩, h3⟩ := hready
        refine ⟨?_, h1, h3⟩
        show τ.find d = some ⟨D, nullptr⟩
        by_cases hd : d ∈ seen
        · exact hnull d hd h1
        · rw [hframe d hd]
          exact h2.resolve_left hd
    obtain ⟨hl1, hl2, hl3⟩ := hl
    obtain ⟨τ2, hstep, hcalls, hdst, hsrc2, hfr⟩ := link_step τ src l D p hsrc hl1 hl2
    have hnull2 : ∀ x ∈ l.dst :: seen, x ≠ l.dst → τ2.find x = some ⟨D, nullptr⟩ := by
      intro x hx hne
      have hx1 : x ∈ seen := (List.mem_cons.1 hx).resolve_left hne
      by_cases hxs : x = src
      · rw [hxs]
        exact hsrc2
      · rw [hfr x hxs hne]
        exact hnull x hx1 hxs
    have hframe2 : ∀ k, k ∉ l.dst :: seen → τ2.find k = σ.find k := by
      intro k hk
      simp only [List.mem_cons, not_or] at hk
      rw [hfr k (fun e => hk.2 (e ▸ hmem)) hk.1]
      exact hframe k hk.2
    obtain ⟨τ1, hrun, hc1, hlast, hnull1⟩ :=
      ih τ2 (l.dst :: seen) l.dst (List.mem_cons_self _ _) hdst hnull2 hframe2 hl3
    refine ⟨τ1, ?_, hc1.trans hcalls, hlast, ?_⟩
    · simp only [chainOps]
      rw [run_cons hstep]
      exact hrun
    · intro x hx hne
      apply hnull1 x _ hne
      simp only [List.map_cons, List.mem_append, List.mem_cons] at hx ⊢
      tauto

/-- Destroying a live handle: the call, if any, and what is left. -/
theorem dtor_step (σ : World) (h : Addr) (D : DeleterId) (q : Ptr)
    (hh : σ.find h = some ⟨D, q⟩) :
    ∃ σ2, step σ (.dtor h) = some σ2 ∧
      σ2.calls = σ.calls ++ (if q ≠ nullptr then [(⟨D, q⟩ : Call)] else []) ∧
      σ2.find h = none ∧ ∀ k, k ≠ h → σ2.find k = σ.find k := by
  refine ⟨_, World.dtor_eq σ h _ hh, ?_, ?_, ?_⟩
  · simp [World.calls_del, World.calls_releaseHeld]
  · simp [World.find_del]
  · intro k hk
    simp [World.find_del, World.find_releaseHeld, hk]

/-- Destroying, in any order, handles of which only `last` owns a pointer: the `Deleter`
runs once, on that pointer, if `last` is among them, and not at all otherwise. -/
theorem dtors_run (D : DeleterId) (p : Ptr) (hp : p ≠ nullptr) (last : Addr)
    (ds : List Addr) :
    ∀ (σ : World), ds.Nodup →
      (∀ h ∈ ds, σ.find h = some ⟨D, if h = last then p else nullptr⟩) →
      ∃ σ1, run σ (ds.map Op.dtor) = some σ1 ∧
        σ1.calls = σ.calls ++ (if last ∈ ds then [(⟨D, p⟩ : Call)] else []) ∧
        (∀ h ∈ ds, σ1.find h = none) ∧ (∀ k, k ∉ ds → σ1.find k = σ.find k) := by
  induction ds with
  | nil =>
    intro σ _ _
    exact ⟨σ, rfl, by simp, by simp, fun _ _ => rfl⟩
  | cons d ds ih =>
    intro σ hnd hall
    obtain ⟨hd, hnd1⟩ := List.nodup_cons.1 hnd
    obtain ⟨σ2, hstep, hc2, hgone, hframe⟩ :=
      dtor_step σ d D _ (hall d (List.mem_cons_self _ _))
    have hall2 : ∀ h ∈ ds, σ2.find h = some ⟨D, if h = last then p else nullptr⟩ := by
      intro h hh
      rw [hframe h (fun e => hd (e ▸ hh))]
      exact hall h (List.mem_cons_of_mem _ hh)
    obtain ⟨σ1, hrun, hc1, hnone, hframe1⟩ := ih σ2 hnd1 hall2
    refine ⟨σ1, ?_, ?_, ?_, ?_⟩
    · simp only [List.map_cons]
      rw [run_cons hstep]
      exact hrun
    · rw [hc1, hc2]
      by_cases hdl : d = last
      · subst hdl
        simp [hd, hp]
      · have hld : ¬ last = d := fun e => hdl e.symm
        simp [hdl, hld]
    · intro h hh
      rcases List.mem_cons.1 hh with rfl | hh
      · rw [hframe1 h hd]
        exact hgone
      · exact hnone h hh
    · intro k hk
      simp only [List.mem_cons, not_or] at hk
      rw [hframe1 k hk.2]
      exact hframe k hk.1

theorem chainLast_mem (src : Addr) (ls : List Link) :
    chainLast src ls ∈ chainHandles src ls := by
  induction ls generalizing src with
  | nil => simp [chainLast, chainHandles]
  | cons l ls ih =>
    have := ih l.dst
    simp only [chainLast, chainHandles, List.map_cons, List.mem_cons] at this ⊢
    tauto

/-- C3: for every non-null pointer `p` and every chain of `k >= 0` ownership transfers that
starts at a handle `h0` owning `p` (each link a move construction of a new handle, or a
non-self move assignment into an Empty handle of the same class, which may be an earlier
handle of the chain), followed by the destruction of every handle of the chain, once each,
in any order (`order` lists the handles of the chain without repetition): the whole sequence runs, and the calls it makes are exactly one call of the
`Deleter` on `p`; afterwards no handle of the chain is live. -/
theorem chain_deletes_once (σ : World) (h0 : Addr) (D : DeleterId) (p : Ptr)
    (ls : List Link) (order : List Addr)
    (hp : p ≠ nullptr) (hown : σ.find h0 = some ⟨D, p⟩)
    (hready : chainReady σ D [h0] h0 ls = true)
    (hperm : order.Perm (chainHandles h0 ls).dedup) :
    ∃ σ1, run σ (chainOps h0 ls ++ order.map Op.dtor) = some σ1 ∧
      σ1.calls = σ.calls ++ [⟨D, p⟩] ∧
      (σ1.calls.drop σ.calls.length).count ⟨D, p⟩ = 1 ∧
      (∀ c ∈ σ1.calls.drop σ.calls.length, c.arg = p) ∧
      ∀ h ∈ chainHandles h0 ls, σ1.find h = none := by
  have hnd : order.Nodup := hperm.nodup_iff.2 (List.nodup_dedup _)
  have horder : ∀ h, h ∈ order ↔ h ∈ chainHandles h0 ls :=
    fun h => hperm.mem_iff.trans List.mem_dedup
  obtain ⟨σ2, hrun2, hc2, hlast, hnull⟩ :=
    chain_run σ D p ls σ [h0] h0 (List.mem_singleton_self _) hown
      (fun x hx hne => absurd (List.mem_singleton.1 hx) hne) (fun _ _ => rfl) hready
  have hall : ∀ h ∈ order, σ2.find h = some ⟨D, if h = chainLast h0 ls then p else nullptr⟩ := by
    intro h hh
    have hm : h ∈ chainHandles h0 ls := (horder h).1 hh
    by_cases e : h = chainLast h0 ls
    · rw [if_pos e, e]
      exact hlast
    · rw [if_neg e]
      exact hnull h (by simpa [chainHandles] using hm) e
  obtain ⟨σ1, hrun1, hc1, hnone, -⟩ :=
    dtors_run D p hp (chainLast h0 ls) order σ2 hnd hall
  have hin : chainLast h0 ls ∈ order := (horder _).2 (chainLast_mem h0 ls)
  have hcalls : σ1.calls = σ.calls ++ [⟨D, p⟩] := by
    rw [hc1, hc2, if_pos hin]
  refine ⟨σ1, ?_, hcalls, ?_, ?_, ?_⟩
  · rw [run_append, hrun2]
    exact hrun1
  · rw [hcalls, List.drop_left]
    simp
  · intro c hc
    rw [hcalls, List.drop_left] at hc
    rw [List.mem_singleton.1 hc]
  · intro h hh
    exact hnone h ((horder h).2 hh)

/-- Instance of C3: in `sampleWorld` handle 1 owns pointer 5; it is moved into the live Empty
handle 2 by assignment, into a new handle 3 by construction, back into handle 1 by
assignment, and into a new handle 4 by construction; the four handles are then destroyed
in the order 3, 1, 4, 2. -/
theorem chain_deletes_once_witness :
    (5 : Ptr) ≠ nullptr ∧ sampleWorld.find 1 = some ⟨0, 5⟩ ∧
    chainReady sampleWorld 0 [1] 1 [.assign 2, .construct 3, .assign 1, .construct 4] = true ∧
    List.Perm [3, 1, 4, 2]
      (chainHandles 1 [.assign 2, .construct 3, .assign 1, .construct 4]).dedup ∧
    ∃ σ1, run sampleWorld
        (chainOps 1 [.assign 2, .construct 3, .assign 1, .construct 4] ++
          [3, 1, 4, 2].map Op.dtor) = some σ1 ∧
      σ1.calls = sampleWorld.calls ++ [⟨0, 5⟩] ∧
      (σ1.calls.drop sampleWorld.calls.length).count ⟨0, 5⟩ = 1 ∧
      (∀ c ∈ σ1.calls.drop sampleWorld.calls.length, c.arg = 5) ∧
      ∀ h ∈ chainHandles 1 [.assign 2, .construct 3, .assign 1, .construct 4],
        σ1.find h = none :=
  ⟨by decide, by decide, by decide, by decide,
    chain_deletes_once sampleWorld 1 0 5 [.assign 2, .construct 3, .assign 1, .construct 4]
      [3, 1, 4, 2] (by decide) (by decide) (by decide) (by decide)⟩

/-! ### The array: loops, element access -/

theorem forLoop_succ {S : Type} (k : Nat) (body : Nat → S → S) (s : S) :
    forLoop (k + 1) body s = body k (forLoop k body s) := by
  simp [forLoop, List.range_succ, List.foldl_append]

theorem Array.eq_of_elements {T : Type} {N : Nat} {a b : Array T N}
    (h : a.elements_ = b.elements_) : a = b := by
  cases a
  cases b
  cases h
  rfl

theorem Array.elements_store {T : Type} {N : Nat} (a : Array T N) (i : Nat) (v : T) :
    (a.store i v).elements_ = a.elements_.set i v := rfl

/-- The state of `fill` after the first `k` iterations: the first `k` slots hold `val`, the
others are as they were. -/
theorem Array.fill_loop {T : Type} {N : Nat} (a : Array T N) (val : T) (k : Nat)
    (hk : k ≤ N) (j : Nat) :
    (forLoop k (fun i s => Array.store s i val) a).elements_[j]? =
      if j < k then some val else a.elements_[j]? := by
  induction k with
  | zero => simp [forLoop]
  | succ k ih =>
    have ih1 := ih (by omega)
    have hlen := (forLoop k (fun i s => Array.store s i val) a).length_eq
    rw [forLoop_succ, Array.elements_store, List.getElem?_set]
    by_cases hkj : k = j
    · subst hkj
      simp [hlen, hk]
      omega
    · rw [if_neg hkj, ih1]
      by_cases hj : j < k
      · simp [hj, Nat.lt_succ_of_lt hj]
      · have : ¬ j < k + 1 := by omega
        simp [hj, this]

theorem Array.fill_replicate {T : Type} {N : Nat} (a : Array T N) (val : T) :
    (a.fill val).elements_ = List.replicate N val := by
  apply List.ext_getElem?
  intro j
  rw [Array.fill, Array.fill_loop a val N (Nat.le_refl _) j, List.getElem?_replicate]
  by_cases hj : j < N
  · simp [hj]
  · have : a.elements_.length ≤ j := by rw [a.length_eq]; omega
    simp [hj, List.getElem?_eq_none this]

/-- The state of `swap` after the first `k` iterations: the first `k` slots of the two
arrays are exchanged, the others are as they were. -/
theorem Array.swap_loop {T : Type} {N : Nat} (a b : Array T N) (k : Nat) (hk : k ≤ N)
    (j : Nat) :
    (forLoop k Array.swapSlot (a, b)).1.elements_[j]? =
        (if j < k then b.elements_[j]? else a.elements_[j]?) ∧
    (forLoop k Array.swapSlot (a, b)).2.elements_[j]? =
        (if j < k then a.elements_[j]? else b.elements_[j]?) := by
  induction k generalizing j with
  | zero => simp [forLoop]
  | succ k ih =>
    have ih1 := fun j => ih (by omega) j
    have hka : k < a.elements_.length := by rw [a.length_eq]; omega
    have hkb : k < b.elements_.length := by rw [b.length_eq]; omega
    have h1 : (forLoop k Array.swapSlot (a, b)).1.elements_[k]? = some a.elements_[k] := by
      rw [(ih1 k).1, if_neg (Nat.lt_irrefl k), List.getElem?_eq_getElem hka]
    have h2 : (forLoop k Array.swapSlot (a, b)).2.index k = some b.elements_[k] := by
      rw [Array.index, (ih1 k).2, if_neg (Nat.lt_irrefl k), List.getElem?_eq_getElem hkb]
    have hl1 := (forLoop k Array.swapSlot (a, b)).1.length_eq
    have hl2 := (forLoop k Array.swapSlot (a, b)).2.length_eq
    rw [forLoop_succ]
    simp only [Array.swapSlot, h1, h2, Array.elements_store, List.getElem?_set]
    by_cases hkj : k = j
    · subst hkj
      simp [hl1, hl2, hk, List.getElem?_eq_getElem hka, List.getElem?_eq_getElem hkb]
      omega
    · rw [if_neg hkj, if_neg hkj, (ih1 j).1, (ih1 j).2]
      by_cases hj : j < k
      · simp [hj, Nat.lt_succ_of_lt hj]
      · have : ¬ j < k + 1 := by omega
        simp [hj, this]

theorem Array.swap_pair {T : Type} {N : Nat} (a b : Array T N) : a.swap b = (b, a) := by
  have h1 : (a.swap b).1 = b := by
    apply Array.eq_of_elements
    apply List.ext_getElem?
    intro j
    rw [Array.swap, (Array.swap_loop a b N (Nat.le_refl _) j).1]
    by_cases hj : j < N
    · simp [hj]
    · have ha : a.elements_.length ≤ j := by rw [a.length_eq]; omega
      have hb : b.elements_.length ≤ j := by rw [b.length_eq]; omega
      simp [hj, List.getElem?_eq_none ha, List.getElem?_eq_none hb]
  have h2 : (a.swap b).2 = a := by
    apply Array.eq_of_elements
    apply List.ext_getElem?
    intro j
    rw [Array.swap, (Array.swap_loop a b N (Nat.le_refl _) j).2]
    by_cases hj : j < N
    · simp [hj]
    · have ha : a.elements_.length ≤ j := by rw [a.length_eq]; omega
      have hb : b.elements_.length ≤ j := by rw [b.length_eq]; omega
      simp [hj, List.getElem?_eq_none ha, List.getElem?_eq_none hb]
  exact Prod.ext h1 h2

theorem ArrayOf.swap_eq {T : Type} : ∀ {N : Nat} (a b : ArrayOf T N), a.swap b = (b, a)
  | 0, _, _ => rfl
  | _ + 1, a, b => Array.swap_pair a b

theorem ArrayOf.index_eq {T : Type} : ∀ {N : Nat} (a : ArrayOf T N) (i : Nat),
    0 < N → a.index i = a.elements[i]?
  | 0, _, _, h => absurd h (Nat.lt_irrefl 0)
  | _ + 1, _, _, _ => rfl

theorem ArrayOf.elements_fill {T : Type} : ∀ {N : Nat} (a : ArrayOf T N) (v : T),
    (a.fill v).elements = List.replicate N v
  | 0, _, _ => rfl
  | _ + 1, a, v => Array.fill_replicate a v

theorem ArrayOf.at_ok {T : Type} : ∀ {N : Nat} (a : ArrayOf T N) (i : Nat)
    (h : i < a.elements.length), a.at_ i = Except.ok (a.elements.get ⟨i, h⟩)
  | 0, _, _, h => absurd h (by simp [ArrayOf.elements])
  | n + 1, a, i, h => by
    have hi : ¬ i ≥ n + 1 := by
      have := ArrayOf.length_elements a
      omega
    simp [ArrayOf.at_, Array.at_, hi, ArrayOf.elements]

theorem ArrayOf.index_ok {T : Type} {N : Nat} (a : ArrayOf T N) (i : Nat)
    (h : i < a.elements.length) : a.index i = some (a.elements.get ⟨i, h⟩) := by
  have hN : 0 < N := by
    have := ArrayOf.length_elements a
    omega
  rw [ArrayOf.index_eq a i hN, List.getElem?_eq_getElem h, List.get_eq_getElem]

/-- C11: for every `N > 0`, every array `a` of length `N` and every index `i < N`, the
unchecked access `a[i]` and the checked access `a.at(i)` both return normally and return the
same element, element `i` of the storage.  The mutable and the const overload of each have
one body, so this holds for both.  (`i < N` entails `N > 0`.) -/
theorem index_eq_at {T : Type} (N : Nat) (a : ArrayOf T N) (i : Nat) (hi : i < N) :
    ∃ h : i < a.elements.length,
      a.index i = some (a.elements.get ⟨i, h⟩) ∧
      a.at_ i = Except.ok (a.elements.get ⟨i, h⟩) ∧
      ∀ x, a.index i = some x ↔ a.at_ i = Except.ok x := by
  have h : i < a.elements.length := by rw [ArrayOf.length_elements a]; exact hi
  refine ⟨h, ArrayOf.index_ok a i h, ArrayOf.at_ok a i h, ?_⟩
  intro x
  rw [ArrayOf.index_ok a i h, ArrayOf.at_ok a i h]
  constructor
  · intro e
    cases e
    rfl
  · intro e
    cases e
    rfl

/-- Instance of C11 on `Array<int, 3>{1, 2, 3}` at index 1. -/
theorem index_eq_at_witness :
    1 < 3 ∧
    ∃ h : 1 < (ArrayOf.ofList [1, 2, 3]).elements.length,
      (ArrayOf.ofList [1, 2, 3]).index 1
        = some ((ArrayOf.ofList [1, 2, 3]).elements.get ⟨1, h⟩) ∧
      (ArrayOf.ofList [1, 2, 3]).at_ 1
        = Except.ok ((ArrayOf.ofList [1, 2, 3]).elements.get ⟨1, h⟩) ∧
      ∀ x, (ArrayOf.ofList [1, 2, 3]).index 1 = some x ↔
        (ArrayOf.ofList [1, 2, 3]).at_ 1 = Except.ok x :=
  ⟨by decide, index_eq_at 3 (ArrayOf.ofList [1, 2, 3]) 1 (by decide)⟩

/-- C12: for every `N >= 0`, every array `a` of length `N` and every value `v`, `a.fill(v)`
returns with every one of the `N` slots holding `v` (the storage is `N` copies of `v`), so
reading any index `i < N`, checked or unchecked, yields `v`; the length is still `N`; for
`N == 0` the array is left as it was. -/
theorem fill_contract {T : Type} (N : Nat) (a : ArrayOf T N) (v : T) :
    (a.fill v).elements = List.replicate N v ∧
    (a.fill v).elements.length = N ∧
    (∀ i, i < N → (a.fill v).index i = some v ∧ (a.fill v).at_ i = Except.ok v) ∧
    (N = 0 → a.fill v = a) := by
  have he := ArrayOf.elements_fill a v
  refine ⟨he, ArrayOf.length_elements _, ?_, ?_⟩
  · intro i hi
    have h : i < (a.fill v).elements.length := by rw [ArrayOf.length_elements]; exact hi
    have hx : (a.fill v).elements.get ⟨i, h⟩ = v := by
      rw [List.get_eq_getElem]
      simp [he]
    rw [ArrayOf.index_ok _ i h, ArrayOf.at_ok _ i h, hx]
    exact ⟨rfl, rfl⟩
  · intro h0
    subst h0
    rfl

/-- Instance of C12: `Array<int, 3>{1, 2, 3}.fill(9)`. -/
theorem fill_contract_witness :
    ((ArrayOf.ofList [1, 2, 3]).fill 9).elements = [9, 9, 9] ∧
    ((ArrayOf.ofList [1, 2, 3]).fill 9).index 2 = some 9 :=
  ⟨(fill_contract 3 (ArrayOf.ofList [1, 2, 3]) 9).1,
   ((fill_contract 3 (ArrayOf.ofList [1, 2, 3]) 9).2.2.1 2 (by decide)).1⟩

/-- C13: for every `N` and every pair of arrays `a`, `b` of length `N`, `a.swap(b)` returns
with `a` holding the old contents of `b` and `b` the old contents of `a`: for every `i < N`
the new `a[i]` is the old `b[i]` and the new `b[i]` is the old `a[i]`; for `N == 0` both
are left as they were. -/
theorem swap_contract {T : Type} (N : Nat) (a b : ArrayOf T N) :
    a.swap b = (b, a) ∧
    (∀ i, i < N → ∃ x y, a.index i = some x ∧ b.index i = some y ∧
      (a.swap b).1.index i = some y ∧ (a.swap b).2.index i = some x) ∧
    (N = 0 → a.swap b = (a, b)) := by
  have he := ArrayOf.swap_eq a b
  refine ⟨he, ?_, ?_⟩
  · intro i hi
    have ha : i < a.elements.length := by rw [ArrayOf.length_elements]; exact hi
    have hb : i < b.elements.length := by rw [ArrayOf.length_elements]; exact hi
    refine ⟨_, _, ArrayOf.index_ok a i ha, ArrayOf.index_ok b i hb, ?_, ?_⟩
    · rw [he]
      exact ArrayOf.index_ok b i hb
    · rw [he]
      exact ArrayOf.index_ok a i ha
  · intro h0
    subst h0
    rfl

/-- Instance of C13: swapping `{1, 2, 3}` and `{4, 5, 6}`. -/
theorem swap_contract_witness :
    ((ArrayOf.ofList [1, 2, 3]).swap (ArrayOf.ofList [4, 5, 6])).1.elements = [4, 5, 6] ∧
    ((ArrayOf.ofList [1, 2, 3]).swap (ArrayOf.ofList [4, 5, 6])).2.elements = [1, 2, 3] :=
  ⟨congrArg (fun r => r.1.elements)
      (swap_contract 3 (ArrayOf.ofList [1, 2, 3]) (ArrayOf.ofList [4, 5, 6])).1,
   congrArg (fun r => r.2.elements)
      (swap_contract 3 (ArrayOf.ofList [1, 2, 3]) (ArrayOf.ofList [4, 5, 6])).1⟩

/-- C14: swap is an involution: for every `N` and every pair of arrays `a`, `b` of length
`N`, `a.swap(b); a.swap(b);` leaves both `a` and `b` with their original contents. -/
theorem swap_involution {T : Type} (N : Nat) (a b : ArrayOf T N) :
    ((a.swap b).1.swap (a.swap b).2 = (a, b)) ∧
    ((a.swap b).1.swap (a.swap b).2).1.elements = a.elements ∧
    ((a.swap b).1.swap (a.swap b).2).2.elements = b.elements := by
  have h : (a.swap b).1.swap (a.swap b).2 = (a, b) := by
    rw [ArrayOf.swap_eq a b, ArrayOf.swap_eq b a]
  exact ⟨h, by rw [h], by rw [h]⟩

/-- Instance of C14: swapping `{1, 2, 3}` and `{4, 5, 6}` twice. -/
theorem swap_involution_witness :
    (((ArrayOf.ofList [1, 2, 3]).swap (ArrayOf.ofList [4, 5, 6])).1.swap
      ((ArrayOf.ofList [1, 2, 3]).swap (ArrayOf.ofList [4, 5, 6])).2).1.elements = [1, 2, 3] ∧
    (((ArrayOf.ofList [1, 2, 3]).swap (ArrayOf.ofList [4, 5, 6])).1.swap
      ((ArrayOf.ofList [1, 2, 3]).swap (ArrayOf.ofList [4, 5, 6])).2).2.elements = [4, 5, 6] :=
  ⟨(swap_involution 3 (ArrayOf.ofList [1, 2, 3]) (ArrayOf.ofList [4, 5, 6])).2.1,
   (swap_involution 3 (ArrayOf.ofList [1, 2, 3]) (ArrayOf.ofList [4, 5, 6])).2.2⟩

/-! ### The array: iteration, ends, size -/

/-- The traversal from `elements_ + k` to `elements_ + N` visits the stored elements from
slot `k` on, provided the fuel covers the `N - k` steps. -/
theorem ArrayOf.traverseFrom_elem {T : Type} {N : Nat} (a : ArrayOf T N) (fuel : Nat) :
    ∀ k, k ≤ N → N - k ≤ fuel →
      a.traverseFrom (.elem N) fuel (.elem k) = some (a.elements.drop k) := by
  have hlen := ArrayOf.length_elements a
  induction fuel with
  | zero =>
    intro k hk hf
    have hkN : k = N := by omega
    subst hkN
    rw [ArrayOf.traverseFrom, if_pos rfl, List.drop_of_length_le (by omega)]
  | succ fuel ih =>
    intro k hk hf
    by_cases hkN : k = N
    · subst hkN
      rw [ArrayOf.traverseFrom, if_pos rfl, List.drop_of_length_le (by omega)]
    · have hlt : k < a.elements.length := by omega
      have hne : ElemPtr.elem k ≠ ElemPtr.elem N := by
        intro e
        cases e
        exact hkN rfl
      rw [ArrayOf.traverseFrom, if_neg hne]
      simp only [ArrayOf.deref, List.getElem?_eq_getElem hlt, ElemPtr.add]
      rw [ih (k + 1) (by omega) (by omega), List.drop_eq_getElem_cons hlt]
      rfl

theorem ArrayOf.traverse_eq {T : Type} : ∀ {N : Nat} (a : ArrayOf T N) (fuel : Nat),
    N ≤ fuel → a.traverse fuel = some a.elements
  | 0, a, fuel, _ => by
    cases fuel <;>
      simp [ArrayOf.traverse, ArrayOf.traverseFrom, ArrayOf.begin_, ArrayOf.end_,
        Array0.begin_, Array0.end_, ArrayOf.elements]
  | n + 1, a, fuel, h => by
    have := ArrayOf.traverseFrom_elem a fuel 0 (Nat.zero_le _) (by omega)
    simpa [ArrayOf.traverse, ArrayOf.begin_, ArrayOf.end_, Array.begin_, Array.end_,
      ElemPtr.add] using this

theorem ArrayOf.ends {T : Type} : ∀ {N : Nat} (a : ArrayOf T N),
    a.end_ = a.begin_.add N ∧ a.data = a.begin_ ∧
      (0 < N → a.begin_ = .elem 0) ∧ (N = 0 → a.begin_ = .null)
  | 0, _ => ⟨rfl, rfl, fun h => absurd h (Nat.lt_irrefl 0), fun _ => rfl⟩
  | n + 1, _ => ⟨rfl, rfl, fun _ => rfl, fun h => absurd h (Nat.succ_ne_zero n)⟩

/-- C15: for every `N` and every array `a` of length `N`: the traversal from `begin()` to
`end()` (one body for the mutable and the const overloads) ends and visits exactly the `N`
stored elements in storage order, the `k`-th visited being `a[k]`; `end()` is `begin() + N`;
`data()` is the pointer `begin()` returns, and reading `data() + i` for `i < N` yields
`a[i]`; for `N == 0`, `begin() == end()`, the traversal is empty and `data()` is null. -/
theorem traversal_contract {T : Type} (N : Nat) (a : ArrayOf T N) :
    (∀ fuel, N ≤ fuel → a.traverse fuel = some a.elements) ∧
    a.elements.length = N ∧
    (∀ k, k < N → a.elements[k]? = a.index k) ∧
    a.end_ = a.begin_.add N ∧
    a.data = a.begin_ ∧
    (∀ i, i < N → a.deref (a.data.add i) = a.index i ∧
      ∃ h : i < a.elements.length, a.index i = some (a.elements.get ⟨i, h⟩)) ∧
    (N = 0 → a.begin_ = a.end_ ∧ a.traverse 0 = some [] ∧ a.data = .null) := by
  obtain ⟨hend, hdata, hpos, hzero⟩ := ArrayOf.ends a
  have hlen := ArrayOf.length_elements a
  refine ⟨fun fuel h => ArrayOf.traverse_eq a fuel h, hlen, ?_, hend, hdata, ?_, ?_⟩
  · intro k hk
    rw [ArrayOf.index_eq a k (by omega)]
  · intro i hi
    have h : i < a.elements.length := by omega
    refine ⟨?_, h, ArrayOf.index_ok a i h⟩
    rw [hdata, hpos (by omega), ArrayOf.index_eq a i (by omega)]
    simp [ElemPtr.add, ArrayOf.deref]
  · intro h0
    subst h0
    exact ⟨rfl, rfl, rfl⟩

/-- Instance of C15: traversing `Array<int, 3>{1, 2, 3}`. -/
theorem traversal_contract_witness :
    (ArrayOf.ofList [1, 2, 3]).traverse 3 = some [1, 2, 3] ∧
    (ArrayOf.ofList [1, 2, 3]).end_ = ((ArrayOf.ofList [1, 2, 3]).begin_).add 3 :=
  ⟨(traversal_contract 3 (ArrayOf.ofList [1, 2, 3])).1 3 (by decide),
   (traversal_contract 3 (ArrayOf.ofList [1, 2, 3])).2.2.2.1⟩

/-- C16: for every `N > 0` and every array `a` of length `N`, `front()` returns element 0
and `back()` returns element `N - 1`, that is `a[0]` and `a[N - 1]`; for `N == 1` they are
the same element.  Both return normally, and a call has no result but the element: the
array is as it was. -/
theorem front_back_contract {T : Type} (N : Nat) (a : ArrayOf T N) (hN : 0 < N) :
    ∃ (h0 : 0 < a.elements.length) (h1 : N - 1 < a.elements.length),
      a.front = some (a.elements.get ⟨0, h0⟩) ∧
      a.back = some (a.elements.get ⟨N - 1, h1⟩) ∧
      a.front = a.index 0 ∧ a.back = a.index (N - 1) ∧
      (N = 1 → a.front = a.back) := by
  have hlen := ArrayOf.length_elements a
  have h0 : 0 < a.elements.length := by omega
  have h1 : N - 1 < a.elements.length := by omega
  have hf : a.front = a.index 0 := by
    cases N with
    | zero => exact absurd hN (Nat.lt_irrefl 0)
    | succ n => rfl
  have hb : a.back = a.index (N - 1) := by
    cases N with
    | zero => exact absurd hN (Nat.lt_irrefl 0)
    | succ n => rfl
  refine ⟨h0, h1, ?_, ?_, hf, hb, ?_⟩
  · rw [hf]
    exact ArrayOf.index_ok a 0 h0
  · rw [hb]
    exact ArrayOf.index_ok a (N - 1) h1
  · intro e
    subst e
    rw [hf, hb]

/-- Instance of C16 on `Array<int, 3>{1, 2, 3}`. -/
theorem front_back_contract_witness :
    0 < 3 ∧ (ArrayOf.ofList [1, 2, 3]).front = (ArrayOf.ofList [1, 2, 3]).index 0 ∧
    (ArrayOf.ofList [1, 2, 3]).back = (ArrayOf.ofList [1, 2, 3]).index (3 - 1) :=
  ⟨by decide,
   match front_back_contract 3 (ArrayOf.ofList [1, 2, 3]) (by decide) with
   | ⟨_, _, _, _, hf, hb, _⟩ => ⟨hf, hb⟩⟩

theorem ArrayOf.sizes {T : Type} : ∀ {N : Nat} (a : ArrayOf T N),
    a.size = N ∧ a.max_size = N ∧ (a.empty = true ↔ N = 0)
  | 0, _ => ⟨rfl, rfl, by simp [ArrayOf.empty, Array0.empty]⟩
  | n + 1, _ => ⟨rfl, rfl, by simp [ArrayOf.empty, Array.empty]⟩

/-- C17: for every instantiation with length `N`, `N = 0` included, and every contents,
also the contents after `fill` and after `swap`: `size() == max_size() == N`, and
`empty()` is true if and only if `N == 0`. -/
theorem size_contract {T : Type} (N : Nat) (a : ArrayOf T N) :
    (a.size = N ∧ a.max_size = N ∧ a.size = a.max_size ∧ (a.empty = true ↔ N = 0)) ∧
    (∀ v, (a.fill v).size = N ∧ (a.fill v).max_size = N ∧
      ((a.fill v).empty = true ↔ N = 0)) ∧
    (∀ b : ArrayOf T N,
      ((a.swap b).1.size = N ∧ (a.swap b).1.max_size = N ∧
        ((a.swap b).1.empty = true ↔ N = 0)) ∧
      ((a.swap b).2.size = N ∧ (a.swap b).2.max_size = N ∧
        ((a.swap b).2.empty = true ↔ N = 0))) := by
  obtain ⟨h1, h2, h3⟩ := ArrayOf.sizes a
  exact ⟨⟨h1, h2, h1.trans h2.symm, h3⟩, fun v => ArrayOf.sizes _,
    fun b => ⟨ArrayOf.sizes _, ArrayOf.sizes _⟩⟩

/-- Instance of C17 on `Array<int, 3>{1, 2, 3}` and on `Array<int, 0>`. -/
theorem size_contract_witness :
    ((ArrayOf.ofList [1, 2, 3]).size = 3 ∧ (ArrayOf.ofList [1, 2, 3]).max_size = 3 ∧
      (ArrayOf.ofList [1, 2, 3]).size = (ArrayOf.ofList [1, 2, 3]).max_size ∧
      ((ArrayOf.ofList [1, 2, 3]).empty = true ↔ 3 = 0)) ∧
    ((ArrayOf.ofList ([] : List Nat)).empty = true ↔ 0 = 0) :=
  ⟨(size_contract 3 (ArrayOf.ofList [1, 2, 3])).1,
   (size_contract 0 (ArrayOf.ofList ([] : List Nat))).1.2.2.2⟩

/-! ### The array-resource handle, and `reset` to the held pointer -/

theorem World.releaseHeld_null (σ : World) (u : UniquePtr) (hu : u.p_ = nullptr) :
    σ.releaseHeld u = σ := by
  simp [World.releaseHeld, hu]

/-- C19: `reset` has no guard for the pointer it already holds: for a live handle `h` of
release strategy `D` owning a non-null `p`, `h.reset(p)` invokes `D` on `p` once and leaves
`h.get() == p`, so `h` still counts as Owning; destroying `h` afterwards invokes `D` on `p`
a second time. -/
theorem reset_self_releases_twice (σ : World) (h : Addr) (D : DeleterId) (p : Ptr)
    (hp : p ≠ nullptr) (hh : σ.find h = some ⟨D, p⟩) :
    ∃ σ1, σ.reset h p = some σ1 ∧ σ1.calls = σ.calls ++ [⟨D, p⟩] ∧
      σ1.get h = some p ∧
      ∃ σ2, σ1.dtor h = some σ2 ∧ σ2.calls = σ.calls ++ [⟨D, p⟩, ⟨D, p⟩] ∧
        (σ2.calls.drop σ.calls.length).count ⟨D, p⟩ = 2 := by
  have h1 : ((σ.releaseHeld ⟨D, p⟩).put h ⟨D, p⟩).find h = some ⟨D, p⟩ := by
    simp [World.find_put]
  have hc : (((σ.releaseHeld ⟨D, p⟩).put h ⟨D, p⟩).releaseHeld ⟨D, p⟩).calls
      = σ.calls ++ [⟨D, p⟩, ⟨D, p⟩] := by
    simp [World.calls_put, World.calls_releaseHeld, hp]
  refine ⟨_, World.reset_eq σ h p _ hh, ?_, ?_, _, World.dtor_eq _ h _ h1, ?_, ?_⟩
  · simp [World.calls_put, World.calls_releaseHeld, hp]
  · simp [World.get_eq, World.find_put]
  · rw [World.calls_del, hc]
  · rw [World.calls_del, hc, List.drop_left]
    simp

/-- Instance of C19: `h1.reset(5)` in `sampleWorld`, where handle 1 owns pointer 5. -/
theorem reset_self_releases_twice_witness :
    (5 : Ptr) ≠ nullptr ∧ sampleWorld.find 1 = some ⟨0, 5⟩ ∧
    ∃ σ1, sampleWorld.reset 1 5 = some σ1 ∧ σ1.calls = sampleWorld.calls ++ [⟨0, 5⟩] ∧
      σ1.get 1 = some 5 ∧
      ∃ σ2, σ1.dtor 1 = some σ2 ∧ σ2.calls = sampleWorld.calls ++ [⟨0, 5⟩, ⟨0, 5⟩] ∧
        (σ2.calls.drop sampleWorld.calls.length).count ⟨0, 5⟩ = 2 :=
  ⟨by decide, by decide, reset_self_releases_twice sampleWorld 1 0 5 (by decide) (by decide)⟩

/-- An operation of the array-resource handle, run where every live handle is Empty, leaves
every live handle Empty and makes no call. -/
theorem arrOp_step {σ σ1 : World} {op : ArrOp}
    (hs : step σ op.base = some σ1)
    (hall : ∀ k u, σ.find k = some u → u.p_ = nullptr) :
    (∀ k u, σ1.find k = some u → u.p_ = nullptr) ∧ σ1.calls = σ.calls := by
  cases op with
  | ctorDefault h D =>
    obtain ⟨-, rfl⟩ := World.ctorNull_some hs
    refine ⟨?_, rfl⟩
    intro k u hk
    rw [World.find_put] at hk
    by_cases e : k = h
    · rw [if_pos e] at hk
      cases hk
      rfl
    · rw [if_neg e] at hk
      exact hall k u hk
  | ctorMove h that =>
    obtain ⟨-, v, hv, rfl⟩ := World.ctorMove_some hs
    refine ⟨?_, rfl⟩
    intro k u hk
    rw [World.find_put, World.find_put] at hk
    by_cases e : k = h
    · rw [if_pos e] at hk
      cases hk
      exact hall that v hv
    · rw [if_neg e] at hk
      by_cases e2 : k = that
      · rw [if_pos e2] at hk
        cases hk
        rfl
      · rw [if_neg e2] at hk
        exact hall k u hk
  | moveAssign t s =>
    obtain ⟨w, v, hw, hv, -, ⟨-, rfl⟩ | ⟨-, rfl⟩⟩ := World.moveAssign_some hs
    · exact ⟨hall, rfl⟩
    · rw [World.releaseHeld_null σ w (hall t w hw)]
      refine ⟨?_, rfl⟩
      intro k u hk
      rw [World.find_put, World.find_put] at hk
      by_cases e : k = t
      · rw [if_pos e] at hk
        cases hk
        exact hall s v hv
      · rw [if_neg e] at hk
        by_cases e2 : k = s
        · rw [if_pos e2] at hk
          cases hk
          rfl
        · rw [if_neg e2] at hk
          exact hall k u hk
  | dtor h =>
    obtain ⟨w, hw, rfl⟩ := World.dtor_some hs
    rw [World.releaseHeld_null σ w (hall h w hw)]
    refine ⟨?_, rfl⟩
    intro k u hk
    rw [World.find_del] at hk
    by_cases e : k = h
    · rw [if_pos e] at hk
      cases hk
    · rw [if_neg e] at hk
      exact hall k u hk

theorem arrOps_run {ops : List ArrOp} : ∀ {σ σ1 : World},
    run σ (ops.map ArrOp.base) = some σ1 →
    (∀ k u, σ.find k = some u → u.p_ = nullptr) →
    (∀ k u, σ1.find k = some u → u.p_ = nullptr) ∧ σ1.calls = σ.calls := by
  induction ops with
  | nil =>
    intro σ σ1 hr hall
    simp only [List.map_nil, run, Option.some.injEq] at hr
    subst hr
    exact ⟨hall, rfl⟩
  | cons op ops ih =>
    intro σ σ1 hr hall
    simp only [List.map_cons] at hr
    cases hs : step σ op.base with
    | none => simp [run, hs] at hr
    | some σ2 =>
      rw [run_cons hs] at hr
      obtain ⟨h2, c2⟩ := arrOp_step hs hall
      obtain ⟨h1, c1⟩ := ih hr h2
      exact ⟨h1, c1.trans c2⟩

/-- C20: the operations usable on a handle of the class `UniquePtr<T[], Deleter>` are
default construction, move construction, move assignment and destruction, each run by the
base class on the base subobject; in every state that a program reaches with them from the
initial state, every such handle is Empty (`p_` is null) and no `Deleter` call has been
made. -/
theorem array_handle_always_empty (ops : List ArrOp) (σ : World)
    (hrun : run World.init (ops.map ArrOp.base) = some σ) :
    (∀ h u, σ.find h = some u → u.p_ = nullptr) ∧
    (∀ h, σ.find h ≠ none → σ.get h = some nullptr) ∧
    σ.calls = [] := by
  have hinit : ∀ k u, World.init.find k = some u → u.p_ = nullptr := by
    intro k u hk
    simp [World.init, World.find] at hk
  obtain ⟨h1, h2⟩ := arrOps_run hrun hinit
  refine ⟨h1, ?_, h2⟩
  intro h hne
  rw [World.get_eq]
  cases hf : σ.find h with
  | none => exact absurd hf hne
  | some u => simp [h1 h u hf]

/-- Instance of C20 on `arrayProgram`: it runs, and leaves the one live handle Empty with no
call made. -/
theorem array_handle_always_empty_witness :
    run World.init (arrayProgram.map ArrOp.base)
      = some ⟨[(1, ⟨blockRelease, nullptr⟩)], []⟩ ∧
    (∀ h u, World.find ⟨[(1, ⟨blockRelease, nullptr⟩)], []⟩ h = some u → u.p_ = nullptr) :=
  ⟨by decide, (array_handle_always_empty arrayProgram _ (by decide)).1⟩

/-! ### The class of the array-resource handle -/

end MySTL
